import Mathlib

/- Verification development for the Hexo → Typecho migration tool
   (`hexo2typecho.py`).  Python strings are modelled as `List Char`;
   Python dictionaries that preserve insertion order are modelled as
   association lists.  Each definition mirrors one function of the
   source file; doc comments name the source symbol. -/

namespace H2T

/-- Characters matched by Python's `[ \t]` class. -/
def isSpTab (c : Char) : Bool := c = ' ' || c = '\t'

/-- Whitespace test used to model Python's `str.strip()` /  `\s`
    (restricted to the ASCII whitespace actually occurring in the data). -/
def isWS (c : Char) : Bool := c = ' ' || c = '\t' || c = '\n' || c = '\r' || c = '\x0b' || c = '\x0c'

/-- Model of Python `str.strip()`: remove leading and trailing whitespace. -/
def pyStrip (l : List Char) : List Char :=
  ((l.dropWhile isWS).reverse.dropWhile isWS).reverse

/-- Model of Python `str.lstrip(chars)` for a single character. -/
def lstripChar (ch : Char) (l : List Char) : List Char :=
  l.dropWhile (· = ch)

/-- Model of Python `str.strip(chars)` for a single character. -/
def stripChar (ch : Char) (l : List Char) : List Char :=
  ((l.dropWhile (· = ch)).reverse.dropWhile (· = ch)).reverse

/-- Model of Python `str.lower()` (ASCII case folding). -/
def pyLower (l : List Char) : List Char := l.map Char.toLower

/-- Backtick character (code-span / fence delimiter). -/
def btick : Char := Char.ofNat 96

/-- Index of the first occurrence of `pat` in `s` (Python `str.find`),
    `none` when `pat` does not occur. -/
def findOcc (pat : List Char) : List Char → Option Nat
  | [] => if pat = [] then some 0 else none
  | c :: rest =>
    if pat.isPrefixOf (c :: rest) then some 0
    else match findOcc pat rest with
      | some i => some (i + 1)
      | none => none

/-- Fuel-driven worker for `replaceAll`; the fuel bounds the number of
    replacements and is always sufficient when set to the string length. -/
def replaceAllFuel (pat rep : List Char) : Nat → List Char → List Char
  | 0, s => s
  | fuel + 1, s =>
    match findOcc pat s with
    | none => s
    | some i => s.take i ++ rep ++ replaceAllFuel pat rep fuel (s.drop (i + pat.length))

/-- Model of Python `str.replace(pat, rep)`: replace all non-overlapping
    occurrences left to right (identity for an empty pattern, which the
    source never uses). -/
def replaceAll (s pat rep : List Char) : List Char :=
  if pat = [] then s else replaceAllFuel pat rep s.length s

/-- Model of Python `str.split(sep)` for a one-character separator. -/
def splitChar (sep : Char) : List Char → List (List Char)
  | [] => [[]]
  | c :: rest =>
    let r := splitChar sep rest
    if c = sep then [] :: r
    else match r with
      | h :: t => (c :: h) :: t
      | [] => [[c]]

/-- Worker for `splitLinesKeep`; `cur` accumulates the current line in
    reverse. -/
def splitLinesKeepAux (cur : List Char) : List Char → List (List Char)
  | [] => if cur = [] then [] else [cur.reverse]
  | '\r' :: '\n' :: rest => (cur.reverse ++ ['\r', '\n']) :: splitLinesKeepAux [] rest
  | '\r' :: rest => (cur.reverse ++ ['\r']) :: splitLinesKeepAux [] rest
  | '\n' :: rest => (cur.reverse ++ ['\n']) :: splitLinesKeepAux [] rest
  | c :: rest => splitLinesKeepAux (c :: cur) rest

/-- Model of Python `str.splitlines(keepends=True)` for the line
    terminators `\n`, `\r\n` and `\r` (the only ones the corpus uses). -/
def splitLinesKeep (s : List Char) : List (List Char) :=
  splitLinesKeepAux [] s

/-- Decimal digit characters of a natural number (worker with fuel). -/
def natToDecAux : Nat → Nat → List Char
  | 0, _ => []
  | fuel + 1, n =>
    if n < 10 then [Char.ofNat (48 + n)]
    else natToDecAux fuel (n / 10) ++ [Char.ofNat (48 + n % 10)]

/-- Decimal representation of a natural number, as Python's `str`/f-string
    formatting produces it. -/
def natToDec (n : Nat) : List Char := natToDecAux (n + 1) n

/-- Source constant `TOKEN_PREFIX` (`"@@HEXO2TYPECHO_TOKEN_"`). -/
def tokenPre : List Char := ("@@HEXO2TYPECHO_TOKEN_").data

/-- Sentinel core shared by every masking token; a document that
    contains this string can collide with generated tokens. -/
def tokenCore : List Char := ("HEXO2TYPECHO_TOKEN_").data

/-- Source `make_token`: builds the sentinel placeholder for index `i`. -/
def make_token (i : Nat) : List Char := tokenPre ++ natToDec i ++ ('@' :: '@' :: [])

/-- Match of the fence-opening regex `^[ \t]*(\x60{3,}|~{3,})` against one
    line, returning the fence character and run length. -/
def openFenceInfo (line : List Char) : Option (Char × Nat) :=
  let t := line.dropWhile isSpTab
  match t with
  | [] => none
  | c :: _ =>
    if c = btick ∨ c = '~' then
      let n := (t.takeWhile (· = c)).length
      if 3 ≤ n then some (c, n) else none
    else none

/-- Match of the fence-closing regex
    `^[ \t]*C\x7bLEN,\x7d[ \t]*\r?\n?$` against one line. -/
def closeFenceMatch (fc : Char) (fl : Nat) (line : List Char) : Bool :=
  let t := line.dropWhile isSpTab
  let run := t.takeWhile (· = fc)
  let rest := (t.drop run.length).dropWhile isSpTab
  decide (fl ≤ run.length) &&
    (rest = [] || rest = ['\n'] || rest = ['\r'] || rest = ['\r', '\n'])

/-- Loop state of `mask_fenced_code_blocks`. -/
structure FenceState where
  inFence : Bool
  fenceChar : Char
  fenceLen : Nat
  buffer : List (List Char)
  out : List (List Char)
  tokens : List (List Char × List Char)
  tokenIndex : Nat

/-- One iteration of the per-line loop of `mask_fenced_code_blocks`. -/
def maskFencedStep (st : FenceState) (line : List Char) : FenceState :=
  if st.inFence = false then
    match openFenceInfo line with
    | some (c, n) =>
      { st with inFence := true, fenceChar := c, fenceLen := n, buffer := [line] }
    | none => { st with out := st.out ++ [line] }
  else
    let buf := st.buffer ++ [line]
    if closeFenceMatch st.fenceChar st.fenceLen line then
      let tok := make_token st.tokenIndex
      { st with
        inFence := false
        buffer := []
        tokens := st.tokens ++ [(tok, buf.flatten)]
        out := st.out ++ [tok]
        tokenIndex := st.tokenIndex + 1 }
    else { st with buffer := buf }

/-- Source `mask_fenced_code_blocks`: replaces complete fenced code
    blocks by tokens; an unterminated fence is appended verbatim.
    The token map is an insertion-ordered association list, exactly like
    the Python `dict`. -/
def mask_fenced_code_blocks (text : List Char) (startIndex : Nat) :
    List Char × List (List Char × List Char) × Nat :=
  let st0 : FenceState := ⟨false, ' ', 0, [], [], [], startIndex⟩
  let st := (splitLinesKeep text).foldl maskFencedStep st0
  let out := if st.inFence ∧ st.buffer ≠ [] then st.out ++ st.buffer else st.out
  (out.flatten, st.tokens, st.tokenIndex)

/-- Fuel-driven worker for `mask_inline_code_spans`; mirrors the index
    loop of the source, with the fuel bounding loop iterations. -/
def maskInlineAux : Nat → Nat → List Char → List Char × List (List Char × List Char) × Nat
  | _, startIdx, [] => ([], [], startIdx)
  | 0, startIdx, s => (s, [], startIdx)
  | fuel + 1, startIdx, c :: rest =>
    if c ≠ btick then
      let r := maskInlineAux fuel startIdx rest
      (c :: r.1, r.2)
    else
      let run := (c :: rest).takeWhile (· = btick)
      let ticks := run.length
      let afterRun := (c :: rest).drop ticks
      let delim := List.replicate ticks btick
      match findOcc delim afterRun with
      | none =>
        let r := maskInlineAux fuel startIdx rest
        (c :: r.1, r.2)
      | some k =>
        let raw := (c :: rest).take (ticks + k + ticks)
        let tok := make_token startIdx
        let remaining := afterRun.drop (k + ticks)
        let r := maskInlineAux fuel (startIdx + 1) remaining
        (tok ++ r.1, (tok, raw) :: r.2.1, r.2.2)

/-- Source `mask_inline_code_spans`: a run of backticks opens a span,
    the next identical-length run closes it; unterminated spans stay
    literal text. -/
def mask_inline_code_spans (text : List Char) (startIndex : Nat) :
    List Char × List (List Char × List Char) × Nat :=
  maskInlineAux text.length startIndex text

/-- Source `restore_tokens`: sequentially replaces each token by its raw
    text, in the token map's insertion order. -/
def restore_tokens (text : List Char) (tokens : List (List Char × List Char)) : List Char :=
  tokens.foldl (fun acc p => replaceAll acc p.1 p.2) text

/-- Source `is_escaped_at`: whether the character at `index` is preceded
    by an odd number of consecutive backslashes. -/
def is_escaped_at (text : List Char) (index : Nat) : Bool :=
  ((text.take index).reverse.takeWhile (· = '\\')).length % 2 = 1

/-- Source `escape_math_underscores`: every unescaped `_` becomes `\_`. -/
def escape_math_underscores (text : List Char) : List Char :=
  text.enum.flatMap
    (fun p => if p.2 = '_' ∧ is_escaped_at text p.1 = false then ['\\', '_'] else [p.2])

/-- Worker of `unescape_math_underscores`: walks the remaining suffix
    while `i` tracks the absolute position inside `text`, exactly as the
    source's `while` loop does. -/
def unescapeGo (text : List Char) : Nat → List Char → List Char
  | _, [] => []
  | i, '\\' :: '_' :: rest2 =>
    if is_escaped_at text i = false then '_' :: unescapeGo text (i + 2) rest2
    else '\\' :: unescapeGo text (i + 1) ('_' :: rest2)
  | i, c :: rest => c :: unescapeGo text (i + 1) rest

/-- Source `unescape_math_underscores`: every unescaped `\_` becomes `_`. -/
def unescape_math_underscores (text : List Char) : List Char :=
  unescapeGo text 0 text

/-- Source `normalize_math_underscores_segment`. -/
def normalize_math_underscores_segment (text : List Char) (mode : List Char) : List Char :=
  if mode = ("underscore").data then unescape_math_underscores text
  else if mode = ("escaped").data then escape_math_underscores text
  else text

/-- Model of a Python `datetime.datetime` value: civil fields plus an
    optional UTC offset in seconds (`tz = none` models a naive datetime,
    `tz = some o` a timezone-aware one). -/
structure PyDateTime where
  year : Nat
  month : Nat
  day : Nat
  hour : Nat
  minute : Nat
  second : Nat
  micro : Nat
  tz : Option Int
deriving DecidableEq, Repr

/-- Model of the Python values front matter can hold: `None`, booleans,
    integers, floats (kept as their literal text, since no claim depends
    on float arithmetic), strings, lists, insertion-ordered dicts and
    datetimes. -/
inductive Value where
  | vnone
  | vbool (b : Bool)
  | vint (n : Int)
  | vfloat (lit : List Char)
  | vstr (s : List Char)
  | vlist (xs : List Value)
  | vdict (kvs : List (List Char × Value))
  | vdate (d : PyDateTime)
deriving Repr

open Value

/-- Decimal representation of an integer (Python `str` on `int`). -/
def intToDec (n : Int) : List Char :=
  if n < 0 then '-' :: natToDec n.natAbs else natToDec n.toNat

/-- Zero-padded two-digit decimal field. -/
def pad2 (n : Nat) : List Char := if n < 10 then '0' :: natToDec n else natToDec n

/-- Zero-padded four-digit decimal field. -/
def pad4 (n : Nat) : List Char :=
  let d := natToDec n
  List.replicate (4 - d.length) '0' ++ d

/-- Zero-padded six-digit decimal field. -/
def pad6 (n : Nat) : List Char :=
  let d := natToDec n
  List.replicate (6 - d.length) '0' ++ d

/-- Offset rendering `+HH:MM` / `-HH:MM` used by `datetime.isoformat`. -/
def offsetToDec (o : Int) : List Char :=
  let sign := if o < 0 then '-' else '+'
  let a := o.natAbs
  sign :: (pad2 (a / 3600) ++ [':'] ++ pad2 ((a % 3600) / 60))

/-- Model of Python `str(datetime)` (space-separated ISO form). -/
def pyStrDate (d : PyDateTime) : List Char :=
  pad4 d.year ++ ['-'] ++ pad2 d.month ++ ['-'] ++ pad2 d.day ++ [' '] ++
    pad2 d.hour ++ [':'] ++ pad2 d.minute ++ [':'] ++ pad2 d.second ++
    (if d.micro = 0 then [] else '.' :: pad6 d.micro) ++
    (match d.tz with | none => [] | some o => offsetToDec o)

/-- Model of Python `repr` on front-matter values (used only through
    `str` on containers; strings are quoted, exotic escaping elided as no
    claim depends on it). -/
def pyRepr : Value → List Char
  | vnone => ("None").data
  | vbool b => if b then ("True").data else ("False").data
  | vint n => intToDec n
  | vfloat lit => lit
  | vstr s => '\'' :: (s ++ ['\''])
  | vdate d => pyStrDate d
  | vlist xs =>
    '[' :: (List.intercalate (", ").data ((xs.attach.map (fun x => pyRepr x.1))) ++ [']'])
  | vdict kvs =>
    Char.ofNat 123 ::
      (List.intercalate (", ").data
        ((kvs.attach.map
          (fun kv => '\'' :: (kv.1.1 ++ ['\'']) ++ (": ").data ++ pyRepr kv.1.2))) ++
        [Char.ofNat 125])
termination_by v => sizeOf v
decreasing_by
  · have h1 := List.sizeOf_lt_of_mem x.2
    simp only [Value.vlist.sizeOf_spec]
    omega
  · have h1 := List.sizeOf_lt_of_mem kv.2
    have h2 : sizeOf (kv.1).2 < sizeOf kv.1 := by
      obtain ⟨⟨a, b⟩, hm⟩ := kv
      simp
    simp only [Value.vdict.sizeOf_spec]
    omega

/-- Model of Python `str()` on front-matter values. -/
def pyStr : Value → List Char
  | vstr s => s
  | vnone => ("None").data
  | vbool b => if b then ("True").data else ("False").data
  | vint n => intToDec n
  | vfloat lit => lit
  | vdate d => pyStrDate d
  | vlist xs => pyRepr (vlist xs)
  | vdict kvs => pyRepr (vdict kvs)

/-- Python truthiness (`bool(value)`) on front-matter values. -/
def pyTruthy : Value → Bool
  | vnone => false
  | vbool b => b
  | vint n => n != 0
  | vfloat lit => (lit.filter Char.isDigit).any (· != '0')
  | vstr s => !s.isEmpty
  | vlist xs => !xs.isEmpty
  | vdict kvs => !kvs.isEmpty
  | vdate _ => true

/-- Lookup in an insertion-ordered dict (Python `dict.get`). -/
def assocGet (m : List (List Char × Value)) (k : List Char) : Option Value :=
  (m.find? (fun kv => kv.1 = k)).map Prod.snd

/-- Assignment in an insertion-ordered dict: an existing key keeps its
    position, a new key is appended (Python `dict` semantics). -/
def assocSet : List (List Char × Value) → List Char → Value → List (List Char × Value)
  | [], k, v => [(k, v)]
  | kv :: rest, k, v => if kv.1 = k then (k, v) :: rest else kv :: assocSet rest k v

/-- Characters of the regex class `[A-Za-z0-9_-]` in `KEY_VALUE_RE`. -/
def keyChar (c : Char) : Bool := c.isAlpha || c.isDigit || c = '_' || c = '-'

/-- Match of `KEY_VALUE_RE` (`^([A-Za-z0-9_-]+):(?:\s*(.*))?$`) against a
    stripped line, returning the key and the stripped value text. -/
def matchKeyValue (line : List Char) : Option (List Char × List Char) :=
  let key := line.takeWhile keyChar
  let rest := line.drop key.length
  if key = [] then none
  else match rest with
    | ':' :: tail => some (key, pyStrip tail)
    | _ => none

/-- Match of `LIST_ITEM_RE` (`^\s*-\s*(.+?)\s*$`) against a line,
    returning the trimmed item text. -/
def matchListItem (line : List Char) : Option (List Char) :=
  match line.dropWhile isWS with
  | '-' :: rest =>
    let item := pyStrip rest
    if item = [] then none else some item
  | _ => none

/-- Digit list to number (for `int(text)` on a matched `-?\d+`). -/
def decToNat (ds : List Char) : Nat := ds.foldl (fun a c => a * 10 + (c.toNat - 48)) 0

/-- Test of `re.fullmatch(r"-?\d+", text)`. -/
def matchIntLit (t : List Char) : Bool :=
  match t with
  | '-' :: ds => ds ≠ [] && ds.all Char.isDigit
  | ds => ds ≠ [] && ds.all Char.isDigit

/-- Value of a matched integer literal (Python `int(text)`). -/
def strToInt (t : List Char) : Int :=
  match t with
  | '-' :: ds => - (decToNat ds : Int)
  | ds => (decToNat ds : Int)

/-- Test of `re.fullmatch(r"-?\d+\.\d+", text)`. -/
def matchFloatLit (t : List Char) : Bool :=
  let t' := match t with | '-' :: r => r | r => r
  let ip := t'.takeWhile Char.isDigit
  let rest := t'.drop ip.length
  ip ≠ [] &&
    (match rest with
     | '.' :: f => f ≠ [] && f.all Char.isDigit
     | _ => false)

/-- Source `parse_scalar`: scalar coercion of front-matter values. -/
def parse_scalar (value : List Char) : Value :=
  let text := pyStrip value
  if text = [] then vstr []
  else
    let text :=
      if 2 ≤ text.length ∧ text.head? = text.getLast? ∧
          (text.head? = some '\'' ∨ text.head? = some '"') then
        (text.drop 1).dropLast
      else text
    let lowered := pyLower text
    if lowered = ("true").data then vbool true
    else if lowered = ("false").data then vbool false
    else if lowered = ("null").data ∨ lowered = ("none").data ∨ lowered = ("~").data then vnone
    else if matchIntLit text then vint (strToInt text)
    else if matchFloatLit text then vfloat text
    else vstr text

/-- Worker of `dedupe`, carrying the `seen` set as a list (only
    membership is used, matching the Python `set`). -/
def dedupeAux (seen : List (List Char)) : List (List Char) → List (List Char)
  | [] => []
  | item :: rest =>
    let normalized := pyStrip item
    if normalized = [] ∨ normalized ∈ seen then dedupeAux seen rest
    else normalized :: dedupeAux (normalized :: seen) rest

/-- Source `dedupe`: trims each item, drops empties and keeps the first
    occurrence of each trimmed text. -/
def dedupe (items : List (List Char)) : List (List Char) :=
  dedupeAux [] items

/-- Quote characters stripped by `part.strip("'\"")`. -/
def isQuoteChar (c : Char) : Bool := c = '\'' || c = '"'

/-- Model of Python `str.strip("'\"")`. -/
def stripQuotes (l : List Char) : List Char :=
  ((l.dropWhile isQuoteChar).reverse.dropWhile isQuoteChar).reverse

/-- Source `normalize_list`: flattens scalars, inline bracket lists,
    `name`-keyed mappings and nested lists into an ordered, deduplicated
    list of trimmed non-empty strings. -/
def normalize_list : Value → List (List Char)
  | vnone => []
  | vstr s =>
    let stripped := pyStrip s
    if stripped = [] then []
    else if stripped.head? = some '[' ∧ stripped.getLast? = some ']' then
      let inner := pyStrip ((stripped.drop 1).dropLast)
      if inner = [] then []
      else
        let parts := ((splitChar ',' inner).map pyStrip).filter (· ≠ [])
        dedupe (parts.map stripQuotes)
    else dedupe [stripped]
  | vdict kvs =>
    match kvs.attach.find? (fun kv => kv.1.1 = ("name").data) with
    | some kv => normalize_list kv.1.2
    | none => dedupe ((kvs.attach.map (fun kv => normalize_list kv.1.2)).flatten)
  | vlist xs => dedupe ((xs.attach.map (fun x => normalize_list x.1)).flatten)
  | vbool b => dedupe [pyStr (vbool b)]
  | vint n => dedupe [pyStr (vint n)]
  | vfloat lit => dedupe [pyStr (vfloat lit)]
  | vdate d => dedupe [pyStr (vdate d)]
termination_by v => sizeOf v
decreasing_by
  · have h1 := List.sizeOf_lt_of_mem kv.2
    have h2 : sizeOf (kv.1).2 < sizeOf kv.1 := by
      obtain ⟨⟨a, b⟩, hm⟩ := kv
      simp
    simp only [Value.vdict.sizeOf_spec]
    omega
  · have h1 := List.sizeOf_lt_of_mem kv.2
    have h2 : sizeOf (kv.1).2 < sizeOf kv.1 := by
      obtain ⟨⟨a, b⟩, hm⟩ := kv
      simp
    simp only [Value.vdict.sizeOf_spec]
    omega
  · have h1 := List.sizeOf_lt_of_mem x.2
    simp only [Value.vlist.sizeOf_spec]
    omega

/-- Model of `str.splitlines()` without kept ends: strips the line
    terminator from each kept-ends line. -/
def stripLineEnd (l : List Char) : List Char :=
  let l1 := if l.getLast? = some '\n' then l.dropLast else l
  if l1.getLast? = some '\r' then l1.dropLast else l1

/-- Model of Python `str.splitlines()`. -/
def pySplitlines (s : List Char) : List (List Char) :=
  (splitLinesKeep s).map stripLineEnd

/-- One iteration of the line loop of `parse_simple_yaml`; the state is
    the dict built so far plus the list-continuation key. -/
def parseSimpleYamlStep (st : List (List Char × Value) × Option (List Char))
    (rawLine : List Char) : List (List Char × Value) × Option (List Char) :=
  let stripped := pyStrip rawLine
  if stripped = [] ∨ stripped.head? = some '#' then st
  else
    match matchListItem rawLine, st.2 with
    | some item, some ck =>
      let lst :=
        match assocGet st.1 ck with
        | some (vlist l) => l
        | some other => (normalize_list other).map vstr
        | none => (normalize_list vnone).map vstr
      (assocSet st.1 ck (vlist (lst ++ [parse_scalar item])), st.2)
    | _, _ =>
      match matchKeyValue stripped with
      | none => (st.1, none)
      | some (key, valueRaw) =>
        if valueRaw = [] then (assocSet st.1 key (vlist []), some key)
        else if valueRaw.head? = some '[' ∧ valueRaw.getLast? = some ']' then
          let inside := pyStrip ((valueRaw.drop 1).dropLast)
          if inside = [] then (assocSet st.1 key (vlist []), some key)
          else
            (assocSet st.1 key
              (vlist ((splitChar ',' inside).map (fun p => parse_scalar (pyStrip p)))), some key)
        else if (key = ("tags").data ∨ key = ("categories").data) ∧ ',' ∈ valueRaw then
          (assocSet st.1 key
            (vlist ((splitChar ',' valueRaw).filterMap
              (fun p => if pyStrip p = [] then none else some (parse_scalar (pyStrip p))))),
            some key)
        else (assocSet st.1 key (parse_scalar valueRaw), some key)

/-- Source `parse_simple_yaml`: the minimal YAML-subset fallback parser. -/
def parse_simple_yaml (frontText : List Char) : List (List Char × Value) :=
  ((pySplitlines frontText).foldl parseSimpleYamlStep ([], none)).1

/-- Source `parse_front_matter`, modelling the environment without a full
    YAML engine (`yaml is None`), where the minimal parser is always
    used. -/
def parse_front_matter (frontText : List Char) : List (List Char × Value) :=
  parse_simple_yaml frontText

/-- Source constant `FRONT_MATTER_BOUNDARY`. -/
def FRONT_MATTER_BOUNDARY : List Char := ("---").data

/-- Line-ending normalization of `split_front_matter`
    (`text.replace("\r\n", "\n").replace("\r", "\n")`). -/
def normalizeNewlines (text : List Char) : List Char :=
  replaceAll (replaceAll text ("\r\n").data ("\n").data) ("\r").data ("\n").data

/-- Source `split_front_matter`: normalizes line endings, detects the
    delimiter pair and splits metadata from body.  The
    `not isinstance(front, dict)` guard of the source is vacuous for the
    modelled fallback parser, which always returns a dict. -/
def split_front_matter (text : List Char) : List (List Char × Value) × List Char :=
  let normalized := normalizeNewlines text
  let lines := splitChar '\n' normalized
  match lines with
  | [] => ([], normalized)
  | first :: rest =>
    if pyStrip first ≠ FRONT_MATTER_BOUNDARY then ([], normalized)
    else
      match rest.findIdx? (fun l => pyStrip l = FRONT_MATTER_BOUNDARY) with
      | none => ([], normalized)
      | some j =>
        let frontText := List.intercalate ['\n'] (rest.take j)
        let content := lstripChar '\n' (List.intercalate ['\n'] (rest.drop (j + 1)))
        (parse_front_matter frontText, content)

/-- Offset of the environment's local timezone in seconds.  The source
    reads it through `datetime.now().astimezone()`; the model fixes it to
    UTC, which no claim depends on — only the presence of a timezone
    matters. -/
def localTzSeconds : Int := 0

/-- Leap-year test (Gregorian). -/
def isLeap (y : Nat) : Bool := y % 4 = 0 && (y % 100 ≠ 0 || y % 400 = 0)

/-- Days in a month (Gregorian). -/
def daysInMonth (y m : Nat) : Nat :=
  if m = 2 then (if isLeap y then 29 else 28)
  else if m = 4 ∨ m = 6 ∨ m = 9 ∨ m = 11 then 30
  else 31

/-- Days since the Unix epoch of a civil date (Howard Hinnant's
    `days_from_civil`). -/
def daysFromCivil (y m d : Int) : Int :=
  let y' := y - (if m ≤ 2 then 1 else 0)
  let era := Int.fdiv y' 400
  let yoe := y' - era * 400
  let doy := Int.fdiv (153 * (m + (if 2 < m then -3 else 9)) + 2) 5 + d - 1
  let doe := yoe * 365 + Int.fdiv yoe 4 - Int.fdiv yoe 100 + doy
  era * 146097 + doe - 719468

/-- Civil date from days since the Unix epoch (Howard Hinnant's
    `civil_from_days`). -/
def civilFromDays (z : Int) : Int × Int × Int :=
  let z' := z + 719468
  let era := Int.fdiv z' 146097
  let doe := z' - era * 146097
  let yoe := Int.fdiv (doe - Int.fdiv doe 1460 + Int.fdiv doe 36524 - Int.fdiv doe 146096) 365
  let y := yoe + era * 400
  let doy := doe - (365 * yoe + Int.fdiv yoe 4 - Int.fdiv yoe 100)
  let mp := Int.fdiv (5 * doy + 2) 153
  let d := doy - Int.fdiv (153 * mp + 2) 5 + 1
  let m := mp + (if mp < 10 then 3 else -9)
  (y + (if m ≤ 2 then 1 else 0), m, d)

/-- Seconds since the Unix epoch of an aware datetime (a naive one is
    read as UTC, matching `localTzSeconds = 0`); microseconds are
    truncated as `int(...timestamp())` does. -/
def pyTimestamp (d : PyDateTime) : Int :=
  daysFromCivil d.year d.month d.day * 86400 +
    d.hour * 3600 + d.minute * 60 + d.second - (d.tz.getD localTzSeconds)

/-- Model of `datetime.astimezone()`: attaches the local timezone to a
    naive datetime, converts an aware one to local civil time. -/
def pyAstimezone (d : PyDateTime) : PyDateTime :=
  match d.tz with
  | none => { d with tz := some localTzSeconds }
  | some _ =>
    let t := pyTimestamp d + localTzSeconds
    let days := Int.fdiv t 86400
    let secs := (t - days * 86400).toNat
    let c := civilFromDays days
    ⟨c.1.toNat, c.2.1.toNat, c.2.2.toNat,
      secs / 3600, (secs % 3600) / 60, secs % 60, d.micro, some localTzSeconds⟩

/-- Model of `datetime.fromtimestamp(n, tz=timezone.utc).astimezone()`:
    an aware datetime in local civil time. -/
def pyFromTimestampLocal (n : Int) : PyDateTime :=
  let t := n + localTzSeconds
  let days := Int.fdiv t 86400
  let secs := (t - days * 86400).toNat
  let c := civilFromDays days
  ⟨c.1.toNat, c.2.1.toNat, c.2.2.toNat,
    secs / 3600, (secs % 3600) / 60, secs % 60, 0, some localTzSeconds⟩

/-- Integer part of a matched float literal (used for
    `fromtimestamp(float(value))`; the fractional second is dropped,
    which no claim observes). -/
def floatLitToInt (lit : List Char) : Int :=
  strToInt (lit.takeWhile (fun c => c ≠ '.'))

/-- Parse exactly four decimal digits. -/
def parse4Digits : List Char → Option (Nat × List Char)
  | a :: b :: c :: d :: r =>
    if a.isDigit && b.isDigit && c.isDigit && d.isDigit then
      some (decToNat [a, b, c, d], r)
    else none
  | _ => none

/-- Parse exactly two decimal digits. -/
def parse2Digits : List Char → Option (Nat × List Char)
  | a :: b :: r => if a.isDigit && b.isDigit then some (decToNat [a, b], r) else none
  | _ => none

/-- Parse the optional UTC offset suffix `±HH:MM[:SS]` of an ISO
    timestamp, returning the offset in seconds. -/
def parseIsoOffset : List Char → Option (Option Int × List Char)
  | [] => some (none, [])
  | c :: r =>
    if c = '+' ∨ c = '-' then
      match parse2Digits r with
      | none => none
      | some (oh, r1) =>
        match r1 with
        | ':' :: r2 =>
          match parse2Digits r2 with
          | none => none
          | some (om, r3) =>
            let withSec :=
              match r3 with
              | ':' :: r4 =>
                match parse2Digits r4 with
                | none => none
                | some (os, r5) => some (os, r5)
              | _ => some (0, r3)
            match withSec with
            | none => none
            | some (os, r6) =>
              if oh < 24 ∧ om < 60 ∧ os < 60 then
                let total : Int := oh * 3600 + om * 60 + os
                some (some (if c = '-' then -total else total), r6)
              else none
        | _ => none
    else some (none, c :: r)

/-- Parse the time part `HH:MM[:SS[.ffffff]]` of an ISO timestamp. -/
def parseIsoTime (l : List Char) : Option (Nat × Nat × Nat × Nat × List Char) :=
  match parse2Digits l with
  | none => none
  | some (h, r1) =>
    match r1 with
    | ':' :: r2 =>
      match parse2Digits r2 with
      | none => none
      | some (mi, r3) =>
        let secPart :=
          match r3 with
          | ':' :: r4 =>
            match parse2Digits r4 with
            | none => none
            | some (s, r5) =>
              match r5 with
              | '.' :: r6 =>
                let fd := r6.takeWhile Char.isDigit
                if fd.length = 0 ∨ 6 < fd.length then none
                else
                  let us := decToNat fd * 10 ^ (6 - fd.length)
                  some (s, us, r6.drop fd.length)
              | _ => some (s, 0, r5)
          | _ => some (0, 0, r3)
        match secPart with
        | none => none
        | some (s, us, r7) =>
          if h < 24 ∧ mi < 60 ∧ s < 60 then some (h, mi, s, us, r7) else none
    | _ => none

/-- Model of `datetime.fromisoformat` for the padded
    `YYYY-MM-DD[*HH:MM[:SS[.ffffff]]][±HH:MM[:SS]]` shapes the tool
    feeds it (the only ones the corpus produces). -/
def pyFromIso (s : List Char) : Option PyDateTime :=
  match parse4Digits s with
  | none => none
  | some (y, r1) =>
    match r1 with
    | '-' :: r2 =>
      match parse2Digits r2 with
      | none => none
      | some (mo, r3) =>
        match r3 with
        | '-' :: r4 =>
          match parse2Digits r4 with
          | none => none
          | some (d, r5) =>
            if 1 ≤ mo ∧ mo ≤ 12 ∧ 1 ≤ d ∧ d ≤ daysInMonth y mo then
              match r5 with
              | [] => some ⟨y, mo, d, 0, 0, 0, 0, none⟩
              | _sep :: r6 =>
                match parseIsoTime r6 with
                | none => none
                | some (h, mi, sec, us, r7) =>
                  match parseIsoOffset r7 with
                  | some (tz, []) => some ⟨y, mo, d, h, mi, sec, us, tz⟩
                  | _ => none
            else none
        | _ => none
    | _ => none

/-- Matcher for strptime `%m` (`1[0-2]|0[1-9]|[1-9]`). -/
def matchMonthField : List Char → Option (Nat × List Char)
  | a :: b :: r =>
    if a = '1' ∧ ('0' ≤ b ∧ b ≤ '2') then some (10 + (b.toNat - 48), r)
    else if a = '0' ∧ ('1' ≤ b ∧ b ≤ '9') then some (b.toNat - 48, r)
    else if '1' ≤ a ∧ a ≤ '9' then some (a.toNat - 48, b :: r)
    else none
  | [a] => if '1' ≤ a ∧ a ≤ '9' then some (a.toNat - 48, []) else none
  | [] => none

/-- Matcher for strptime `%d` (`3[01]|[12]\d|0[1-9]|[1-9]`). -/
def matchDayField : List Char → Option (Nat × List Char)
  | a :: b :: r =>
    if a = '3' ∧ ('0' ≤ b ∧ b ≤ '1') then some (30 + (b.toNat - 48), r)
    else if ('1' ≤ a ∧ a ≤ '2') ∧ b.isDigit then
      some ((a.toNat - 48) * 10 + (b.toNat - 48), r)
    else if a = '0' ∧ ('1' ≤ b ∧ b ≤ '9') then some (b.toNat - 48, r)
    else if '1' ≤ a ∧ a ≤ '9' then some (a.toNat - 48, b :: r)
    else none
  | [a] => if '1' ≤ a ∧ a ≤ '9' then some (a.toNat - 48, []) else none
  | [] => none

/-- Matcher for strptime `%H` (`2[0-3]|[0-1]\d|\d`). -/
def matchHourField : List Char → Option (Nat × List Char)
  | a :: b :: r =>
    if a = '2' ∧ ('0' ≤ b ∧ b ≤ '3') then some (20 + (b.toNat - 48), r)
    else if ('0' ≤ a ∧ a ≤ '1') ∧ b.isDigit then
      some ((a.toNat - 48) * 10 + (b.toNat - 48), r)
    else if a.isDigit then some (a.toNat - 48, b :: r)
    else none
  | [a] => if a.isDigit then some (a.toNat - 48, []) else none
  | [] => none

/-- Matcher for strptime `%M`/`%S` (`[0-5]\d|\d`). -/
def matchMinSecField : List Char → Option (Nat × List Char)
  | a :: b :: r =>
    if ('0' ≤ a ∧ a ≤ '5') ∧ b.isDigit then
      some ((a.toNat - 48) * 10 + (b.toNat - 48), r)
    else if a.isDigit then some (a.toNat - 48, b :: r)
    else none
  | [a] => if a.isDigit then some (a.toNat - 48, []) else none
  | [] => none

/-- Date-part matcher `%Y sep %m sep %d` shared by the known formats. -/
def matchDatePart (sep : Char) (l : List Char) : Option (Nat × Nat × Nat × List Char) :=
  match parse4Digits l with
  | none => none
  | some (y, r1) =>
    match r1 with
    | c :: r2 =>
      if c = sep then
        match matchMonthField r2 with
        | none => none
        | some (mo, r3) =>
          match r3 with
          | c2 :: r4 =>
            if c2 = sep then
              match matchDayField r4 with
              | none => none
              | some (d, r5) =>
                if 1 ≤ d ∧ d ≤ daysInMonth y mo then some (y, mo, d, r5) else none
            else none
          | _ => none
      else none
    | _ => none

/-- Time-of-day matcher ` %H:%M[:%S]` shared by the known formats. -/
def matchTimePart (withSec : Bool) (l : List Char) : Option (Nat × Nat × Nat × List Char) :=
  match l with
  | ' ' :: r0 =>
    match matchHourField r0 with
    | none => none
    | some (h, r1) =>
      match r1 with
      | ':' :: r2 =>
        match matchMinSecField r2 with
        | none => none
        | some (mi, r3) =>
          if withSec then
            match r3 with
            | ':' :: r4 =>
              match matchMinSecField r4 with
              | none => none
              | some (s, r5) => some (h, mi, s, r5)
            | _ => none
          else some (h, mi, 0, r3)
      | _ => none
  | _ => none

/-- Model of `datetime.strptime(text, fmt)` for the six `known_formats`
    of `parse_date`, returning a naive datetime. -/
def tryKnownFormats (text : List Char) : Option PyDateTime :=
  let tryOne : Char → Bool → Bool → Option PyDateTime := fun sep withTime withSec =>
    match matchDatePart sep text with
    | none => none
    | some (y, mo, d, r) =>
      if withTime then
        match matchTimePart withSec r with
        | some (h, mi, s, []) => some ⟨y, mo, d, h, mi, s, 0, none⟩
        | _ => none
      else if r = [] then some ⟨y, mo, d, 0, 0, 0, 0, none⟩
      else none
  (tryOne '-' true true).orElse fun _ =>
  (tryOne '-' true false).orElse fun _ =>
  (tryOne '-' false false).orElse fun _ =>
  (tryOne '/' true true).orElse fun _ =>
  (tryOne '/' true false).orElse fun _ =>
  (tryOne '/' false false)

/-- Match of `DATE_OFFSET_RE` (`([+-]\d{2})(\d{2})$`) plus the
    colon-inserting substitution of `parse_date`. -/
def applyDateOffsetFix (text : List Char) : List Char :=
  let tailN := text.drop (text.length - 5)
  match tailN with
  | [s, a, b, c, d] =>
    if (s = '+' ∨ s = '-') ∧ a.isDigit ∧ b.isDigit ∧ c.isDigit ∧ d.isDigit then
      text.take (text.length - 5) ++ [s, a, b, ':', c, d]
    else text
  | _ => text

/-- Source `parse_date`: accepts datetimes, numeric epochs (booleans
    included, as Python `bool` is an `int`), ISO-ish strings and the six
    known formats; otherwise the fallback, else the current time made
    local.  `now` models the `datetime.now()` clock reading. -/
def parse_date (now : PyDateTime) (value : Value) (fallback : Option PyDateTime) : PyDateTime :=
  let fbk : PyDateTime :=
    match fallback with
    | some f => f
    | none => pyAstimezone now
  match value with
  | vdate d => d
  | vint n => pyFromTimestampLocal n
  | vfloat lit => pyFromTimestampLocal (floatLitToInt lit)
  | vbool b => pyFromTimestampLocal (if b then 1 else 0)
  | vstr s =>
    let text := pyStrip s
    if text = [] then fbk
    else
      let text := if text.getLast? = some 'Z' then text.dropLast ++ ("+00:00").data else text
      let text := applyDateOffsetFix text
      match pyFromIso text with
      | some d => d
      | none =>
        match pyFromIso (replaceAll text ("/").data ("-").data) with
        | some d => d
        | none =>
          match tryKnownFormats text with
          | some d => d
          | none => fbk
  | _ => fbk

/-- Source `ensure_timezone`: attaches the local timezone to a naive
    datetime, leaves aware ones unchanged. -/
def ensure_timezone (d : PyDateTime) : PyDateTime :=
  match d.tz with
  | none => { d with tz := some localTzSeconds }
  | some _ => d

/-- Source `to_unix_timestamp`: `int(ensure_timezone(d).astimezone().timestamp())`. -/
def to_unix_timestamp (d : PyDateTime) : Int :=
  pyTimestamp (pyAstimezone (ensure_timezone d))

/-- Model of Python's Unicode `\w` class restricted to the character
    ranges the corpus uses: ASCII letters and digits, underscore, and the
    CJK range `一-鿿` that the source names explicitly. -/
def isWordChar (c : Char) : Bool :=
  c.isAlphanum || c = '_' || (0x4e00 ≤ c.toNat && c.toNat ≤ 0x9fff)

/-- Collapse every maximal run of characters satisfying `p` into a single
    `rep` (regex `sub(p+, rep)`); `inRun` records whether the previous
    character was part of a run. -/
def collapseAux (p : Char → Bool) (rep : Char) : Bool → List Char → List Char
  | _, [] => []
  | inRun, c :: rest =>
    if p c then
      if inRun then collapseAux p rep true rest
      else rep :: collapseAux p rep true rest
    else c :: collapseAux p rep false rest

/-- Source `normalize_status`: explicit status text first, then the
    boolean `draft`/`published` flags, defaulting to `publish`. -/
def normalize_status (meta : List (List Char × Value)) : List Char :=
  let status := pyLower (pyStrip (pyStr ((assocGet meta ("status").data).getD (vstr []))))
  if status = ("publish").data ∨ status = ("draft").data ∨ status = ("private").data ∨
      status = ("hidden").data ∨ status = ("waiting").data then status
  else
    match assocGet meta ("draft").data with
    | some (vbool true) => ("draft").data
    | _ =>
      match assocGet meta ("published").data with
      | some (vbool false) => ("draft").data
      | _ => ("publish").data

/-- Source `slugify`: lowercase, drop characters outside `[\w\s-]`,
    collapse whitespace/underscore runs and hyphen runs to single
    hyphens, trim hyphens, defaulting to `item`. -/
def slugify (text : List Char) : List Char :=
  let v := pyLower (pyStrip text)
  let v := v.filter (fun c => isWordChar c || isWS c || c = '-')
  let v := collapseAux (fun c => isWS c || c = '_') '-' false v
  let v := collapseAux (fun c => c = '-') '-' false v
  let v := stripChar '-' v
  if v = [] then ("item").data else v

/-- Source `default_post_stem`: the parent directory name for
    `index`/`readme` placeholders inside their own subdirectory,
    otherwise the file stem.  `parentIsSource` models
    `path.parent == source_dir`. -/
def default_post_stem (parentIsSource : Bool) (parentName stem : List Char) : List Char :=
  if parentIsSource = false ∧
      (pyLower stem = ("index").data ∨ pyLower stem = ("readme").data) then
    parentName
  else stem

/-- Source `strip_asset_suffix`: removes a trailing
    `_<8 digits>_<6 digits>` timestamp suffix (`TIMESTAMP_SUFFIX_RE`). -/
def strip_asset_suffix (name : List Char) : List Char :=
  if 16 ≤ name.length then
    let t := name.drop (name.length - 16)
    let ok :=
      match t with
      | u1 :: r1 =>
        u1 = '_' && (r1.take 8).all Char.isDigit &&
          (match r1.drop 8 with
           | u2 :: r2 => u2 = '_' && r2.length = 6 && r2.all Char.isDigit
           | [] => false)
      | [] => false
    if ok then name.take (name.length - 16) else name
  else name

/-- Source `normalize_asset_match_key`: strips the timestamp suffix,
    lowercases, removes separator characters and keeps word characters. -/
def normalize_asset_match_key (name : List Char) : List Char :=
  let base := pyLower (strip_asset_suffix name)
  let base := base.filter (fun c => !(isWS c || c = '_' || c = '-'))
  base.filter isWordChar

/-- Ascending lexicographic sort, as Python `sorted` on strings. -/
def sortStrings (l : List (List Char)) : List (List Char) :=
  l.insertionSort (· ≤ ·)

/-- Source `resolve_asset_dir_name`.  The path arguments are modelled by
    `parentIsSource` (`markdown_path.parent == source_dir`), the parent
    directory name and the file stem; the sibling-directory set by a
    list. -/
def resolve_asset_dir_name (parentIsSource : Bool) (parentName stem : List Char)
    (assetDirNames : List (List Char)) : Option (List Char) :=
  if parentIsSource = false then some parentName
  else if stem ∈ assetDirNames then some stem
  else
    let prefixMatches :=
      sortStrings (assetDirNames.filter (fun n => (stem ++ ['_']).isPrefixOf n))
    let normalizedStem := normalize_asset_match_key stem
    let normalizedMatches :=
      sortStrings (assetDirNames.filter (fun n => normalize_asset_match_key n = normalizedStem))
    match prefixMatches with
    | [p] => some p
    | _ =>
      match normalizedMatches with
      | [n] => some n
      | _ =>
        match prefixMatches with
        | p :: _ => some p
        | [] =>
          match normalizedMatches with
          | n :: _ => some n
          | [] => none

/-- Source `split_url_and_suffix`: splits at the first `?` or `#`. -/
def split_url_and_suffix (url : List Char) : List Char × List Char :=
  let qIdx := findOcc ['?'] url
  let hIdx := findOcc ['#'] url
  let idx := min (qIdx.getD url.length) (hIdx.getD url.length)
  (url.take idx, url.drop idx)

/-- Characters of the regex class `[a-zA-Z0-9+.-]` in the scheme tests. -/
def schemeChar (c : Char) : Bool := c.isAlpha || c.isDigit || c = '+' || c = '.' || c = '-'

/-- Match of `^[a-zA-Z][a-zA-Z0-9+.-]*:` (generic scheme test). -/
def matchScheme (t : List Char) : Bool :=
  match t with
  | c :: rest =>
    c.isAlpha &&
      (match rest.dropWhile schemeChar with
       | ':' :: _ => true
       | _ => false)
  | [] => false

/-- Match of `^[a-zA-Z][a-zA-Z0-9+.-]*://`. -/
def matchSchemeSlashes (t : List Char) : Bool :=
  match t with
  | c :: rest => c.isAlpha && (("://").data.isPrefixOf (rest.dropWhile schemeChar))
  | [] => false

/-- Source `is_relative_url`: rejects empty, absolute, fragment,
    special-scheme and generic-scheme URLs. -/
def is_relative_url (url : List Char) : Bool :=
  let target := pyStrip url
  if target.isEmpty then false
  else
    let lower := pyLower target
    if target.head? = some '/' ∨ target.head? = some '#' then false
    else if ("mailto:").data.isPrefixOf lower ∨ ("data:").data.isPrefixOf lower ∨
        ("javascript:").data.isPrefixOf lower ∨ ("tel:").data.isPrefixOf lower then false
    else if matchScheme target then false
    else true

/-- UTF-8 bytes of a character. -/
def utf8Bytes (c : Char) : List Nat :=
  let n := c.toNat
  if n < 0x80 then [n]
  else if n < 0x800 then [0xC0 + n / 0x40, 0x80 + n % 0x40]
  else if n < 0x10000 then
    [0xE0 + n / 0x1000, 0x80 + (n / 0x40) % 0x40, 0x80 + n % 0x40]
  else
    [0xF0 + n / 0x40000, 0x80 + (n / 0x1000) % 0x40, 0x80 + (n / 0x40) % 0x40, 0x80 + n % 0x40]

/-- Uppercase hexadecimal digit. -/
def hexDigitChar (n : Nat) : Char :=
  if n < 10 then Char.ofNat (48 + n) else Char.ofNat (55 + n)

/-- Percent-encoding of one character under `urllib.parse.quote` with
    `safe="-_.~"` (alphanumerics and `_.-~` stay literal). -/
def quoteChar (c : Char) : List Char :=
  if c.isAlphanum || c = '-' || c = '_' || c = '.' || c = '~' then [c]
  else (utf8Bytes c).flatMap (fun b => ['%', hexDigitChar (b / 16), hexDigitChar (b % 16)])

/-- Model of `urllib.parse.quote(seg, safe="-_.~")`. -/
def pyQuote (seg : List Char) : List Char := seg.flatMap quoteChar

/-- Model of Python `str.rstrip(chars)` for a single character. -/
def rstripChar (ch : Char) (l : List Char) : List Char :=
  (l.reverse.dropWhile (· = ch)).reverse

/-- Source `join_url_prefix`: joins percent-encoded path segments onto
    the configured URL prefix. -/
def join_url_pre (pre : List Char) (pathSegments : List (List Char)) : List Char :=
  let encodedPath :=
    List.intercalate ['/'] ((pathSegments.filter (fun s => !s.isEmpty)).map pyQuote)
  let clean := pyStrip pre
  if matchSchemeSlashes clean ∨ ("//").data.isPrefixOf clean then
    let base := rstripChar '/' clean
    if encodedPath.isEmpty then base else base ++ ['/'] ++ encodedPath
  else
    let leadingSlash := clean.head? = some '/'
    let prefixSegments := (splitChar '/' (stripChar '/' clean)).filter (fun s => !s.isEmpty)
    let allSegments := prefixSegments ++ pathSegments
    let encoded :=
      List.intercalate ['/'] ((allSegments.filter (fun s => !s.isEmpty)).map pyQuote)
    if leadingSlash then '/' :: encoded else encoded

/-- Repeatedly strip a leading `./`, as the `while` loop of
    `rewrite_relative_asset_url` does. -/
def dropDotSlash : List Char → List Char
  | '.' :: '/' :: rest => dropDotSlash rest
  | l => l

/-- Source `rewrite_relative_asset_url`: rewrites a relative URL under
    the resolved asset directory and URL prefix, or returns `none` when
    the URL is left untouched. -/
def rewrite_relative_asset_url (url assetDirName urlPre : List Char) : Option (List Char) :=
  if !is_relative_url url then none
  else
    let ps := split_url_and_suffix (pyStrip url)
    let suffix := ps.2
    let normalizedPath := replaceAll ps.1 ['\\'] ['/']
    let normalizedPath := dropDotSlash normalizedPath
    if ("../").data.isPrefixOf normalizedPath then none
    else
      let normalizedPath := lstripChar '/' normalizedPath
      if normalizedPath.isEmpty then none
      else
        let relSegments :=
          (splitChar '/' normalizedPath).filter (fun seg => !seg.isEmpty && seg ≠ ['.'])
        if relSegments.isEmpty then none
        else
          let firstSegKey := normalize_asset_match_key (relSegments.headD [])
          let assetKey := normalize_asset_match_key assetDirName
          let targetSegments :=
            if firstSegKey = assetKey then relSegments else assetDirName :: relSegments
          let rewritten := join_url_pre urlPre targetSegments
          if rewritten.isEmpty then none
          else some (rewritten ++ suffix)

/-- Worker for `split_markdown_target` when the target is not
    angle-bracket wrapped: Python `text.split(maxsplit=1)` on stripped
    text. -/
def splitNoWs (text : List Char) : List Char × List Char × Bool :=
  let hd := text.takeWhile (fun c => !isWS c)
  let rest := (text.drop hd.length).dropWhile isWS
  if rest.isEmpty then (hd, [], false) else (hd, ' ' :: rest, false)

/-- Source `split_markdown_target`: separates a markdown image target
    into URL, trailing title text and angle-bracket wrapping flag. -/
def split_markdown_target (rawTarget : List Char) : List Char × List Char × Bool :=
  let text := pyStrip rawTarget
  if text.isEmpty then ([], [], false)
  else if text.head? = some '<' then
    match findOcc ['>'] text with
    | some closeIdx =>
      let url := pyStrip ((text.drop 1).take (closeIdx - 1))
      let tail := text.drop (closeIdx + 1)
      (url, tail, true)
    | none => splitNoWs text
  else splitNoWs text

/-- Matcher for `MARKDOWN_IMAGE_RE` (`(!\[[^\]]*]\()([^\)\n]+)(\))`) at
    the head of the input, returning group 1, group 2 and the rest after
    the match (group 3 is the literal `)`). -/
def matchMdImage : List Char → Option (List Char × List Char × List Char)
  | '!' :: '[' :: r =>
    let alt := r.takeWhile (fun c => c ≠ ']')
    match r.drop alt.length with
    | ']' :: '(' :: r2 =>
      let tgt := r2.takeWhile (fun c => c ≠ ')' ∧ c ≠ '\n')
      if tgt.isEmpty then none
      else
        match r2.drop tgt.length with
        | ')' :: r3 => some ('!' :: '[' :: (alt ++ [']', '(']), tgt, r3)
        | _ => none
    | _ => none
  | _ => none

/-- Model of `MARKDOWN_IMAGE_RE.sub(repl, ·)`: left-to-right
    non-overlapping scan; `repl` maps groups 1 and 2 to the replacement
    text and a counter increment. -/
def mdImageSub (repl : List Char → List Char → List Char × Nat) :
    Nat → List Char → List Char × Nat
  | 0, s => (s, 0)
  | _ + 1, [] => ([], 0)
  | fuel + 1, c :: rest =>
    match matchMdImage (c :: rest) with
    | some (g1, g2, after) =>
      let r := repl g1 g2
      let k := mdImageSub repl fuel after
      (r.1 ++ k.1, r.2 + k.2)
    | none =>
      let k := mdImageSub repl fuel rest
      (c :: k.1, k.2)

/-- Attempt to match `\bsrc\s*=\s*(["'])` at the head of the input
    (`prev` is the preceding character, for the word boundary).  Returns
    the consumed `src...=...` text, the quote, the quoted URL and the
    rest after the closing quote. -/
def trySrcAt (prev : Char) (chars : List Char) :
    Option (List Char × Char × List Char × List Char) :=
  if isWordChar prev then none
  else
    match chars with
    | s :: rch :: cch :: r3 =>
      if s.toLower = 's' ∧ rch.toLower = 'r' ∧ cch.toLower = 'c' then
        let ws1 := r3.takeWhile isWS
        match r3.drop ws1.length with
        | '=' :: r4 =>
          let ws2 := r4.takeWhile isWS
          match r4.drop ws2.length with
          | q :: r5 =>
            if q = '"' ∨ q = '\'' then
              let inner := r5.takeWhile (fun c => c ≠ q)
              if inner.isEmpty ∨ '\n' ∈ inner then none
              else
                match r5.drop inner.length with
                | _ :: r6 =>
                  some (([s, rch, cch] ++ ws1 ++ ['=']) ++ ws2, q, inner, r6)
                | [] => none
            else none
          | [] => none
        | _ => none
      else none
    | _ => none

/-- Lazy scan of `[^>]*?\bsrc\s*=\s*(["'])(.+?)(\1)`: expands the
    non-`>` run one character at a time, trying the `src` part at each
    offset (shortest expansion first, as the lazy quantifier does). -/
def findSrcScan (prev : Char) (acc : List Char) :
    List Char → Option (List Char × Char × List Char × List Char)
  | [] => none
  | c :: rest =>
    match trySrcAt prev (c :: rest) with
    | some (srcPart, q, url, r2) => some (acc ++ srcPart, q, url, r2)
    | none => if c = '>' then none else findSrcScan c (acc ++ [c]) rest

/-- Matcher for `HTML_IMG_SRC_RE`
    (`(<img\b[^>]*?\bsrc\s*=\s*)(["'])(.+?)(\2)`, case-insensitive) at
    the head of the input, returning group 1, the quote (groups 2/4),
    group 3 and the rest after the match. -/
def matchHtmlImg : List Char → Option (List Char × Char × List Char × List Char)
  | a :: b :: c :: d :: r =>
    let boundaryOk : Bool :=
      match r with
      | e :: _ => !isWordChar e
      | [] => true
    if a = '<' ∧ b.toLower = 'i' ∧ c.toLower = 'm' ∧ d.toLower = 'g' ∧ boundaryOk then
      match findSrcScan d [] r with
      | some (middle, q, url, rest) => some (([a, b, c, d]) ++ middle, q, url, rest)
      | none => none
    else none
  | _ => none

/-- Model of `HTML_IMG_SRC_RE.sub(repl, ·)`. -/
def htmlImgSub (repl : List Char → Char → List Char → List Char × Nat) :
    Nat → List Char → List Char × Nat
  | 0, s => (s, 0)
  | _ + 1, [] => ([], 0)
  | fuel + 1, c :: rest =>
    match matchHtmlImg (c :: rest) with
    | some (g1, q, g3, after) =>
      let r := repl g1 q g3
      let k := htmlImgSub repl fuel after
      (r.1 ++ k.1, r.2 + k.2)
    | none =>
      let k := htmlImgSub repl fuel rest
      (c :: k.1, k.2)

/-- Inner `replace_markdown` of `rewrite_image_links`. -/
def replaceMarkdownFn (assetDirName urlPre : List Char) (g1 g2 : List Char) :
    List Char × Nat :=
  let t := split_markdown_target g2
  let url := t.1
  let tail := t.2.1
  let wrapped := t.2.2
  if url.isEmpty then (g1 ++ g2 ++ [')'], 0)
  else
    match rewrite_relative_asset_url url assetDirName urlPre with
    | none => (g1 ++ g2 ++ [')'], 0)
    | some rw =>
      let target := if wrapped then '<' :: (rw ++ ['>'] ++ tail) else rw ++ tail
      (g1 ++ target ++ [')'], 1)

/-- Inner `replace_html` of `rewrite_image_links`. -/
def replaceHtmlFn (assetDirName urlPre : List Char) (g1 : List Char) (q : Char)
    (g3 : List Char) : List Char × Nat :=
  match rewrite_relative_asset_url g3 assetDirName urlPre with
  | none => (g1 ++ [q] ++ g3 ++ [q], 0)
  | some rw => (g1 ++ [q] ++ rw ++ [q], 1)

/-- Source `rewrite_image_links`: rewrites markdown image targets and
    HTML `img src` attributes, returning the new content and the number
    of rewritten links. -/
def rewrite_image_links (content : List Char) (assetDirName : Option (List Char))
    (assetMode urlPre : List Char) : List Char × Nat :=
  if assetMode ≠ ("prefix").data then (content, 0)
  else
    match assetDirName with
    | none => (content, 0)
    | some adn =>
      let r1 := mdImageSub (replaceMarkdownFn adn urlPre) (content.length + 1) content
      let r2 := htmlImgSub (replaceHtmlFn adn urlPre) (r1.1.length + 1) r1.1
      (r2.1, r1.2 + r2.2)

/-- Scan for a markdown image whose target is a non-empty relative URL
    (first half of `has_relative_image_links`). -/
def mdAnyRel : Nat → List Char → Bool
  | 0, _ => false
  | _ + 1, [] => false
  | fuel + 1, c :: rest =>
    match matchMdImage (c :: rest) with
    | some (_, g2, after) =>
      let u := (split_markdown_target g2).1
      if !u.isEmpty && is_relative_url u then true else mdAnyRel fuel after
    | none => mdAnyRel fuel rest

/-- Scan for an HTML `img src` whose URL is relative (second half of
    `has_relative_image_links`). -/
def htmlAnyRel : Nat → List Char → Bool
  | 0, _ => false
  | _ + 1, [] => false
  | fuel + 1, c :: rest =>
    match matchHtmlImg (c :: rest) with
    | some (_, _, g3, after) =>
      if is_relative_url g3 then true else htmlAnyRel fuel after
    | none => htmlAnyRel fuel rest

/-- Source `has_relative_image_links`. -/
def has_relative_image_links (content : List Char) : Bool :=
  mdAnyRel (content.length + 1) content || htmlAnyRel (content.length + 1) content

/-- Close-scan for `DISPLAY_DOLLAR_RE`: the earliest `(?<!\\)\$\$` after
    at least one inner character (`prev` is the character before the
    candidate, `acc` the inner text in reverse). -/
def findCloseDD (prev : Char) (acc : List Char) :
    List Char → Option (List Char × List Char)
  | c :: d :: rest =>
    if c = '$' ∧ d = '$' ∧ prev ≠ '\\' ∧ acc ≠ [] then some (acc.reverse, rest)
    else findCloseDD c (c :: acc) (d :: rest)
  | _ => none

/-- One pass of `protect_math(DISPLAY_DOLLAR_RE, "$$", "$$")`: scans with
    the preceding character for the `(?<!\\)` lookbehind, tokenizing each
    match with its inner text normalized. -/
def protectDisplayAux (mode : List Char) :
    Nat → Char → Nat → List Char → List Char × List (List Char × List Char) × Nat
  | 0, _, nextIdx, s => (s, [], nextIdx)
  | _ + 1, _, nextIdx, [] => ([], [], nextIdx)
  | _ + 1, _, nextIdx, [c] => ([c], [], nextIdx)
  | fuel + 1, prev, nextIdx, c :: d :: rest =>
    if c = '$' ∧ d = '$' ∧ prev ≠ '\\' then
      match findCloseDD d [] rest with
      | some (inner, after) =>
        let tok := make_token nextIdx
        let innerNorm := normalize_math_underscores_segment inner mode
        let k := protectDisplayAux mode fuel '$' (nextIdx + 1) after
        (tok ++ k.1, (tok, '$' :: '$' :: (innerNorm ++ ['$', '$'])) :: k.2.1, k.2.2)
      | none =>
        let k := protectDisplayAux mode fuel c nextIdx (d :: rest)
        (c :: k.1, k.2)
    else
      let k := protectDisplayAux mode fuel c nextIdx (d :: rest)
      (c :: k.1, k.2)

/-- Close-scan for the bracket/paren math regexes: the earliest
    `\\` + `close2` after at least one inner character. -/
def findCloseEsc (close2 : Char) (acc : List Char) :
    List Char → Option (List Char × List Char)
  | c :: d :: rest =>
    if c = '\\' ∧ d = close2 ∧ acc ≠ [] then some (acc.reverse, rest)
    else findCloseEsc close2 (c :: acc) (d :: rest)
  | _ => none

/-- One pass of `protect_math` for `BRACKET_MATH_RE` / `PAREN_MATH_RE`
    (`\\open2 (.+?) \\close2`, dot-all, no lookbehinds). -/
def protectEscAux (mode : List Char) (open2 close2 : Char) :
    Nat → Nat → List Char → List Char × List (List Char × List Char) × Nat
  | 0, nextIdx, s => (s, [], nextIdx)
  | _ + 1, nextIdx, [] => ([], [], nextIdx)
  | _ + 1, nextIdx, [c] => ([c], [], nextIdx)
  | fuel + 1, nextIdx, c :: d :: rest =>
    if c = '\\' ∧ d = open2 then
      match findCloseEsc close2 [] rest with
      | some (inner, after) =>
        let tok := make_token nextIdx
        let innerNorm := normalize_math_underscores_segment inner mode
        let k := protectEscAux mode open2 close2 fuel (nextIdx + 1) after
        (tok ++ k.1, (tok, '\\' :: open2 :: (innerNorm ++ ['\\', close2])) :: k.2.1, k.2.2)
      | none =>
        let k := protectEscAux mode open2 close2 fuel nextIdx (d :: rest)
        (c :: k.1, k.2)
    else
      let k := protectEscAux mode open2 close2 fuel nextIdx (d :: rest)
      (c :: k.1, k.2)

/-- Close-scan for `INLINE_DOLLAR_RE`: the earliest `(?<!\\)\$` after at
    least one inner character, failing at a newline (the pattern has no
    dot-all flag). -/
def findCloseID (prev : Char) (acc : List Char) :
    List Char → Option (List Char × List Char)
  | [] => none
  | c :: rest =>
    if c = '\n' then none
    else if c = '$' ∧ prev ≠ '\\' ∧ acc ≠ [] then some (acc.reverse, rest)
    else findCloseID c (c :: acc) rest

/-- Final in-place pass over single-dollar inline math
    (`INLINE_DOLLAR_RE.sub`): the inner text is normalized but not
    tokenized. -/
def inlineDollarAux (mode : List Char) : Nat → Char → List Char → List Char
  | 0, _, s => s
  | _ + 1, _, [] => []
  | _ + 1, _, [c] => [c]
  | fuel + 1, prev, c :: d :: rest =>
    if c = '$' ∧ prev ≠ '\\' ∧ d ≠ '$' then
      match findCloseID '$' [] (d :: rest) with
      | some (inner, after) =>
        '$' :: (normalize_math_underscores_segment inner mode ++
          '$' :: inlineDollarAux mode fuel '$' after)
      | none => c :: inlineDollarAux mode fuel c (d :: rest)
    else c :: inlineDollarAux mode fuel c (d :: rest)

/-- Source `normalize_mathjax_underscores`: masks code, tokenizes math
    regions in priority order (normalizing their inner text), normalizes
    single-dollar math in place, then restores math tokens before code
    tokens. -/
def normalize_mathjax_underscores (markdown : List Char) (mode : List Char) : List Char :=
  if mode = ("keep").data ∨ markdown.isEmpty then markdown
  else
    let f := mask_fenced_code_blocks markdown 0
    let i := mask_inline_code_spans f.1 f.2.2
    let codeTokens := f.2.1 ++ i.2.1
    let d := protectDisplayAux mode (i.1.length + 1) (Char.ofNat 0) i.2.2 i.1
    let b := protectEscAux mode '[' ']' (d.1.length + 1) d.2.2 d.1
    let p := protectEscAux mode '(' ')' (b.1.length + 1) b.2.2 b.1
    let mathTokens := d.2.1 ++ b.2.1 ++ p.2.1
    let masked := inlineDollarAux mode (p.1.length + 1) (Char.ofNat 0) p.1
    let masked := restore_tokens masked mathTokens
    restore_tokens masked codeTokens

/-- Model of the source dataclass `HexoPost`; the source path is
    represented by the file stem and parent-directory name. -/
structure HexoPost where
  sourceStem : List Char
  sourceParent : List Char
  title : List Char
  slug : List Char
  date : PyDateTime
  updated : PyDateTime
  author : List Char
  content : List Char
  excerpt : List Char
  categories : List (List Char)
  tags : List (List Char)
  status : List Char
  post_type : List Char
  asset_dir_name : Option (List Char)
  rewritten_image_links : Nat
deriving Repr

/-- Source `read_post`.  `raw` is the file text (`path.read_text`),
    `parentIsSource`, `parentName`, `stem` and `fileName` model the path,
    `now` the `datetime.now()` clock reading. -/
def read_post (raw : List Char) (parentIsSource : Bool)
    (parentName stem fileName : List Char) (assetDirNames : List (List Char))
    (defaultAuthor assetMode urlPre mathMode : List Char) (now : PyDateTime) :
    HexoPost × Option (List Char) :=
  let mc := split_front_matter raw
  let meta := mc.1
  let content := mc.2
  let defaultStem := default_post_stem parentIsSource parentName stem
  let title :=
    let tv := (assocGet meta ("title").data).getD vnone
    if pyTruthy tv then pyStr tv else defaultStem
  let slug0 :=
    let sv := (assocGet meta ("slug").data).getD vnone
    let s := pyStrip (if pyTruthy sv then pyStr sv else defaultStem)
    if s.isEmpty then defaultStem else s
  let author :=
    let av := (assocGet meta ("author").data).getD vnone
    let a := pyStrip (if pyTruthy av then pyStr av else defaultAuthor)
    if a.isEmpty then defaultAuthor else a
  let date := parse_date now ((assocGet meta ("date").data).getD vnone) none
  let updated := parse_date now ((assocGet meta ("updated").data).getD vnone) (some date)
  let excerpt :=
    let ev := (assocGet meta ("excerpt").data).getD vnone
    let dv := (assocGet meta ("description").data).getD vnone
    pyStrip (if pyTruthy ev then pyStr ev else if pyTruthy dv then pyStr dv else [])
  let status := normalize_status meta
  let layout :=
    let lv := (assocGet meta ("layout").data).getD vnone
    pyLower (pyStrip (if pyTruthy lv then pyStr lv else ("post").data))
  let postType := if layout = ("page").data then ("page").data else ("post").data
  let categories := normalize_list ((assocGet meta ("categories").data).getD vnone)
  let tags := normalize_list ((assocGet meta ("tags").data).getD vnone)
  let assetDirName := resolve_asset_dir_name parentIsSource parentName stem assetDirNames
  let normalizedContent := normalize_mathjax_underscores (pyStrip content) mathMode
  let rw := rewrite_image_links normalizedContent assetDirName assetMode urlPre
  let warning :=
    if assetMode = ("prefix").data ∧ has_relative_image_links normalizedContent ∧
        assetDirName = none then
      some (fileName ++ (" has relative images but no matched asset folder.").data)
    else none
  (⟨stem, parentName, title, slugify slug0, date, updated, author, rw.1, excerpt,
    categories, tags, status, postType, assetDirName, rw.2⟩, warning)

/-- Model of the source dataclass `Term`. -/
structure Term where
  mid : Int
  name : List Char
  slug : List Char
  term_type : List Char
  count : Nat
deriving Repr, DecidableEq

/-- Fields of one `contents` insert row assembled by `build_sql`. -/
structure ContentRow where
  cid : Int
  title : List Char
  slug : List Char
  created : Int
  modified : Int
  text : List Char
  authorId : Int
  rowType : List Char
  status : List Char
deriving Repr, DecidableEq

/-- Source `compose_text`: merges excerpt and body around a more-tag and
    guarantees the markdown marker prefix. -/
def compose_text (content excerpt : List Char) : List Char :=
  let body := pyStrip content
  let summary := pyStrip excerpt
  let merged :=
    if summary.isEmpty then body
    else if (findOcc (("<!--more-->").data) body).isSome then body
    else if body.isEmpty then summary
    else summary ++ ("\n\n<!--more-->\n\n").data ++ body
  let marker := ("<!--markdown-->").data
  if marker.isPrefixOf merged then merged else marker ++ merged

/-- Mutable state of the post loop in `build_sql`: next ids, content
    rows, the insertion-ordered term map, relationship rows and the
    relationship-dedup set. -/
structure BuildState where
  nextCid : Int
  nextMid : Int
  rows : List ContentRow
  termMap : List ((List Char × List Char) × Term)
  relationships : List (Int × Int)
  relationSeen : List (Int × Int)
deriving Repr

/-- Increment of `term_map[key].count` (keys are unique, so at most one
    entry is bumped). -/
def bumpTermCount (m : List ((List Char × List Char) × Term))
    (key : List Char × List Char) : List ((List Char × List Char) × Term) :=
  m.map (fun e => if e.1 = key then (e.1, { e.2 with count := e.2.count + 1 }) else e)

/-- First half of the term-loop body of `build_sql`: create the term
    under `(kind, name)` unless present, then bump its count. -/
def termLookupOrCreate (kind : List Char) (st : BuildState) (name : List Char) :
    BuildState :=
  let key := (kind, name)
  let st1 :=
    if (st.termMap.find? (fun e => e.1 = key)).isSome then st
    else
      { st with
        termMap := st.termMap ++ [(key, ⟨st.nextMid, name, slugify name, kind, 0⟩)]
        nextMid := st.nextMid + 1 }
  { st1 with termMap := bumpTermCount st1.termMap key }

/-- Second half of the term-loop body of `build_sql`: record the
    relationship unless the `relation_seen` set already holds it. -/
def addRelation (st : BuildState) (rel : Int × Int) : BuildState :=
  if rel ∈ st.relationSeen then st
  else
    { st with
      relationSeen := rel :: st.relationSeen
      relationships := st.relationships ++ [rel] }

/-- One iteration of the `for name in dedupe(...)` loops of `build_sql`:
    look up or create the term, bump its count and record the
    relationship unless already seen. -/
def processTermName (kind : List Char) (cid : Int) (st : BuildState)
    (name : List Char) : BuildState :=
  let st2 := termLookupOrCreate kind st name
  match st2.termMap.find? (fun e => e.1 = (kind, name)) with
  | some e => addRelation st2 (cid, e.2.mid)
  | none => st2

/-- One iteration of the post loop of `build_sql`: allocate the cid,
    emit the content row, then process categories and tags. -/
def processPost (authorId : Int) (st : BuildState) (post : HexoPost) : BuildState :=
  let cid := st.nextCid
  let row : ContentRow :=
    { cid := cid
      title := post.title
      slug := post.slug
      created := to_unix_timestamp post.date
      modified := to_unix_timestamp post.updated
      text := compose_text post.content post.excerpt
      authorId := max authorId 1
      rowType := if post.post_type = ("page").data then ("page").data else ("post").data
      status :=
        if post.status = ("publish").data ∨ post.status = ("draft").data ∨
            post.status = ("private").data ∨ post.status = ("hidden").data ∨
            post.status = ("waiting").data then post.status
        else ("publish").data }
  let st := { st with nextCid := cid + 1, rows := st.rows ++ [row] }
  let st := (dedupe post.categories).foldl (processTermName (("category").data) cid) st
  (dedupe post.tags).foldl (processTermName (("tag").data) cid) st

/-- Data-building part of source `build_sql` (its SQL serialization tail
    only formats these results and is referenced by no claim). -/
def build_sql_state (posts : List HexoPost) (authorId cidStart midStart : Int) :
    BuildState :=
  posts.foldl (processPost authorId) ⟨max cidStart 1, max midStart 1, [], [], [], []⟩

/-- The `metas` rows of `build_sql`: term-map values sorted by mid. -/
def build_sql_terms (posts : List HexoPost) (authorId cidStart midStart : Int) :
    List Term :=
  ((build_sql_state posts authorId cidStart midStart).termMap.map (·.2)).insertionSort
    (fun a b => a.mid ≤ b.mid)

/-- The relationship rows of `build_sql`, in discovery order. -/
def build_sql_relationships (posts : List HexoPost) (authorId cidStart midStart : Int) :
    List (Int × Int) :=
  (build_sql_state posts authorId cidStart midStart).relationships

/-- Depth walk deciding whether a relative path's `..` segments escape
    the current directory (used to state claim C4). -/
def segsEscape : List (List Char) → Int → Bool
  | [], _ => false
  | seg :: rest, d =>
    if seg = ("..").data then (if d ≤ 0 then true else segsEscape rest (d - 1))
    else if seg = ['.'] ∨ seg = [] then segsEscape rest d
    else segsEscape rest (d + 1)

/-- Whether a URL path escapes the current directory via `..` segments
    after separator normalization. -/
def escapesViaDotDot (path : List Char) : Bool :=
  segsEscape (splitChar '/' (replaceAll path ['\\'] ['/'])) 0

/-- The normalized path `rewrite_relative_asset_url` inspects: query and
    fragment split off, backslashes normalized, leading `./` stripped. -/
def normRelPath (url : List Char) : List Char :=
  dropDotSlash (replaceAll (split_url_and_suffix (pyStrip url)).1 ['\\'] ['/'])

/-- Worker for `dedupeSpec`, carrying all earlier items. -/
def dedupeSpecAux (earlier : List (List Char)) : List (List Char) → List (List Char)
  | [] => []
  | item :: rest =>
    let n := pyStrip item
    if n ≠ [] ∧ (∀ e ∈ earlier, pyStrip e ≠ n) then
      n :: dedupeSpecAux (earlier ++ [item]) rest
    else dedupeSpecAux (earlier ++ [item]) rest

/-- Claim C10's description of `dedupe`, written from the claim text: an
    item is dropped exactly when its trimmed text is empty or exactly
    equals an earlier item's trimmed text; kept items appear trimmed, in
    order. -/
def dedupeSpec (items : List (List Char)) : List (List Char) :=
  dedupeSpecAux [] items

/-- First-seen deduplication of an arbitrary list (worker). -/
def firstSeenAux {α : Type} [DecidableEq α] (acc : List α) : List α → List α
  | [] => acc
  | x :: rest =>
    if x ∈ acc then firstSeenAux acc rest else firstSeenAux (acc ++ [x]) rest

/-- First-seen deduplication of an arbitrary list: keeps the first
    occurrence of each element, in encounter order. -/
def firstSeen {α : Type} [DecidableEq α] (l : List α) : List α :=
  firstSeenAux [] l

/-- The `(kind, name)` pairs of the emission order claim C5 describes:
    each post's categories then tags, posts in assembled order. -/
def keyStream (posts : List HexoPost) : List (List Char × List Char) :=
  posts.flatMap
    (fun p =>
      (dedupe p.categories).map (fun n => ((("category").data), n)) ++
        (dedupe p.tags).map (fun n => ((("tag").data), n)))

/-- Number of posts referencing a term through its own kind's field. -/
def countRefs (posts : List HexoPost) (t : Term) : Nat :=
  (posts.filter
    (fun p =>
      decide (t.name ∈ dedupe
        (if t.term_type = ("category").data then p.categories else p.tags)))).length

/-- Number of posts referencing a `(kind, name)` key (the key-level
    counterpart of `countRefs`). -/
def countKey (posts : List HexoPost) (key : List Char × List Char) : Nat :=
  (posts.filter
    (fun p =>
      decide (key.2 ∈ dedupe
        (if key.1 = ("category").data then p.categories else p.tags)))).length

instance : IsAntisymm (List Char) (· ≤ ·) := ⟨fun _ _ => le_antisymm⟩

/-- Invariant carried through the term loops of `build_sql` (claim C5):
    keys are distinct and in first-seen order over the already-emitted
    key stream `S` plus the keys `done` of the current list under kind
    `k`; mids are `base + position`; names, kinds and counts agree with
    the keys, with `P` the per-key reference count over already-processed
    posts. -/
def TermMapInv (base : Int) (P : List Char × List Char → Nat) (k : List Char)
    (S : List (List Char × List Char)) (done : List (List Char))
    (st : BuildState) : Prop :=
  (st.termMap.map (·.1)).Nodup ∧
  st.nextMid = base + st.termMap.length ∧
  st.termMap.map (fun e => e.2.mid) = (List.range st.termMap.length).map (fun i => base + Int.ofNat i) ∧
  st.termMap.map (·.1) = firstSeenAux [] (S ++ done.map (fun x => (k, x))) ∧
  (∀ e ∈ st.termMap, e.2.name = e.1.2 ∧ e.2.term_type = e.1.1) ∧
  (∀ e ∈ st.termMap, e.2.count = P e.1 + (if e.1.1 = k ∧ e.1.2 ∈ done then 1 else 0)) ∧
  (∀ key : List Char × List Char,
    key.1 = ("category").data ∨ key.1 = ("tag").data →
    key ∉ st.termMap.map (·.1) → (P key = 0 ∧ (key.1 = k → key.2 ∉ done))) ∧
  (∀ e ∈ st.termMap, e.1.1 = ("category").data ∨ e.1.1 = ("tag").data)

end H2T

namespace H2T

lemma takeWhile_bs_nil {l : List Char} (h : '\\' ∉ l) : l.takeWhile (· = '\\') = [] := by
  cases l with
  | nil => rfl
  | cons a t =>
    have ha : a ≠ '\\' := fun hc => h (hc ▸ List.mem_cons_self a t)
    simp [List.takeWhile_cons, ha]

lemma is_escaped_at_false {x : List Char} (h : '\\' ∉ x) (i : Nat) :
    is_escaped_at x i = false := by
  unfold is_escaped_at
  have hsub : '\\' ∉ (x.take i).reverse := by
    intro hm
    exact h (List.take_subset _ _ (List.mem_reverse.mp hm))
  rw [takeWhile_bs_nil hsub]
  simp

lemma enumFrom_flatMap_eq {g : Char → List Char} {f : Nat × Char → List Char}
    (hfg : ∀ i c, f (i, c) = g c) : ∀ (n : Nat) (l : List Char),
    (List.enumFrom n l).flatMap f = l.flatMap g := by
  intro n l
  induction l generalizing n with
  | nil => rfl
  | cons a t ih => simp only [List.enumFrom, List.flatMap_cons, hfg, ih]

lemma escape_eq_flatMap {x : List Char} (h : '\\' ∉ x) :
    escape_math_underscores x = x.flatMap (fun c => if c = '_' then ['\\', '_'] else [c]) := by
  unfold escape_math_underscores
  rw [show x.enum = List.enumFrom 0 x from rfl]
  apply enumFrom_flatMap_eq
  intro i c
  simp [is_escaped_at_false h]

lemma unescapeGo_bs_us (text : List Char) (i : Nat) (rest2 : List Char) :
    unescapeGo text i ('\\' :: '_' :: rest2) =
      if is_escaped_at text i = false then '_' :: unescapeGo text (i + 2) rest2
      else '\\' :: unescapeGo text (i + 1) ('_' :: rest2) := rfl

lemma unescapeGo_cons_ne (text : List Char) (i : Nat) (c : Char) (rest : List Char)
    (hc : c ≠ '\\') : unescapeGo text i (c :: rest) = c :: unescapeGo text (i + 1) rest := by
  conv_lhs => rw [unescapeGo.eq_def]
  split
  · rename_i heq; cases heq
  · rename_i heq
    injection heq with h1 h2
    exact absurd h1 hc
  · rename_i heq
    injection heq with h1 h2
    rw [h1, h2]

lemma unescapeGo_expand (x : List Char) (hx : '\\' ∉ x) :
    ∀ (pre full : List Char),
      full = pre ++ x.flatMap (fun c => if c = '_' then ['\\', '_'] else [c]) →
      (pre.reverse.takeWhile (· = '\\')).length % 2 = 0 →
      unescapeGo full pre.length (x.flatMap (fun c => if c = '_' then ['\\', '_'] else [c])) = x := by
  induction x with
  | nil => intro pre full hfull hpar; simp [unescapeGo]
  | cons c xs ih =>
    intro pre full hfull hpar
    have hc : c ≠ '\\' := fun hceq => hx (hceq ▸ List.mem_cons_self c xs)
    have hxs : '\\' ∉ xs := fun hm => hx (List.mem_cons_of_mem _ hm)
    by_cases hcu : c = '_'
    · subst hcu
      have hexp : ('_' :: xs).flatMap (fun c => if c = '_' then ['\\', '_'] else [c]) =
          '\\' :: '_' :: xs.flatMap (fun c => if c = '_' then ['\\', '_'] else [c]) := by
        simp
      rw [hexp] at hfull ⊢
      rw [unescapeGo_bs_us]
      have hesc : is_escaped_at full pre.length = false := by
        unfold is_escaped_at
        rw [hfull, List.take_left]
        simp only [decide_eq_false_iff_not]
        omega
      rw [hesc, if_pos rfl]
      have hfull' : full = (pre ++ ['\\', '_']) ++ xs.flatMap (fun c => if c = '_' then ['\\', '_'] else [c]) := by
        rw [hfull]; simp
      have hpar' : ((pre ++ ['\\', '_']).reverse.takeWhile (· = '\\')).length % 2 = 0 := by
        rw [List.reverse_append]
        simp [List.takeWhile_cons]
      have := ih hxs (pre ++ ['\\', '_']) full hfull' hpar'
      rw [List.length_append] at this
      simpa using this
    · have hexp : (c :: xs).flatMap (fun c => if c = '_' then ['\\', '_'] else [c]) =
          c :: xs.flatMap (fun c => if c = '_' then ['\\', '_'] else [c]) := by
        simp [hcu]
      rw [hexp] at hfull ⊢
      rw [unescapeGo_cons_ne full pre.length c _ hc]
      have hfull' : full = (pre ++ [c]) ++ xs.flatMap (fun c => if c = '_' then ['\\', '_'] else [c]) := by
        rw [hfull]; simp
      have hpar' : ((pre ++ [c]).reverse.takeWhile (· = '\\')).length % 2 = 0 := by
        rw [List.reverse_append]
        simp [List.takeWhile_cons, hc]
      have := ih hxs (pre ++ [c]) full hfull' hpar'
      rw [List.length_append] at this
      simpa using this

/-- Claim C9: for text without backslashes, unescaping after escaping is
    the identity. -/
theorem c9_unescape_escape_identity (x : List Char) (h : '\\' ∉ x) :
    unescape_math_underscores (escape_math_underscores x) = x := by
  rw [escape_eq_flatMap h]
  unfold unescape_math_underscores
  have := unescapeGo_expand x h [] _ rfl (by simp)
  simpa using this

/-- Witness for C9 at a concrete input. -/
theorem c9_witness :
    '\\' ∉ ("a_b __c").data ∧
      unescape_math_underscores (escape_math_underscores (("a_b __c").data)) = ("a_b __c").data :=
  ⟨by decide, c9_unescape_escape_identity (("a_b __c").data) (by decide)⟩

end H2T

namespace H2T

/-- Claim C2 (code defect): on a sentinel-free document in which an
    inline code span begins before a fenced block and closes after it,
    masking fenced blocks, then masking inline code spans, then restoring
    with the produced token maps (fence tokens first, then inline tokens,
    as the merged dict of `normalize_mathjax_underscores` orders them)
    does not reproduce the document: the fence token string leaks into
    the output. -/
theorem c2_restore_after_mask_leaks_token :
    ¬ tokenCore <:+: (("`a\n```\nb\n```\nc`").data) ∧
      restore_tokens
        (mask_inline_code_spans
          (mask_fenced_code_blocks (("`a\n```\nb\n```\nc`").data) 0).1
          (mask_fenced_code_blocks (("`a\n```\nb\n```\nc`").data) 0).2.2).1
        ((mask_fenced_code_blocks (("`a\n```\nb\n```\nc`").data) 0).2.1 ++
          (mask_inline_code_spans
            (mask_fenced_code_blocks (("`a\n```\nb\n```\nc`").data) 0).1
            (mask_fenced_code_blocks (("`a\n```\nb\n```\nc`").data) 0).2.2).2.1) ≠
        (("`a\n```\nb\n```\nc`").data) ∧
      make_token 0 <:+:
        restore_tokens
          (mask_inline_code_spans
            (mask_fenced_code_blocks (("`a\n```\nb\n```\nc`").data) 0).1
            (mask_fenced_code_blocks (("`a\n```\nb\n```\nc`").data) 0).2.2).1
          ((mask_fenced_code_blocks (("`a\n```\nb\n```\nc`").data) 0).2.1 ++
            (mask_inline_code_spans
              (mask_fenced_code_blocks (("`a\n```\nb\n```\nc`").data) 0).1
              (mask_fenced_code_blocks (("`a\n```\nb\n```\nc`").data) 0).2.2).2.1) := by
  decide

/-- The same defect observed through `normalize_mathjax_underscores`: the
    normalizer's output still contains the sentinel token. -/
theorem c2_normalize_leaks_token :
    make_token 0 <:+:
      normalize_mathjax_underscores (("`a\n```\nb\n```\nc`").data) (("escaped").data) := by
  decide

end H2T

namespace H2T

lemma findOcc_none_of_head_not_mem {c : Char} {pat s : List Char}
    (hp : pat.head? = some c) (h : c ∉ s) : findOcc pat s = none := by
  induction s with
  | nil =>
    cases pat with
    | nil => cases hp
    | cons a t => rfl
  | cons a rest ih =>
    have ha : a ≠ c := fun hac => h (hac ▸ List.mem_cons_self a rest)
    have hnp : ¬ pat.isPrefixOf (a :: rest) = true := by
      intro hpre
      cases pat with
      | nil => cases hp
      | cons p pt =>
        injection hp with hp1
        rw [List.isPrefixOf] at hpre
        simp at hpre
        exact ha (by rw [← hpre.1, hp1])
    have hrest : c ∉ rest := fun hm => h (List.mem_cons_of_mem _ hm)
    rw [findOcc]
    simp [hnp, ih hrest]

lemma replaceAllFuel_id {pat rep s : List Char} (h : findOcc pat s = none) :
    ∀ fuel, replaceAllFuel pat rep fuel s = s := by
  intro fuel
  cases fuel with
  | zero => rfl
  | succ n => rw [replaceAllFuel, h]

lemma replaceAll_id {s pat rep : List Char} (h : findOcc pat s = none) :
    replaceAll s pat rep = s := by
  unfold replaceAll
  split
  · rfl
  · exact replaceAllFuel_id h _

lemma normalizeNewlines_id {text : List Char} (h : '\r' ∉ text) :
    normalizeNewlines text = text := by
  unfold normalizeNewlines
  have h1 : findOcc (("\r\n").data) text = none :=
    findOcc_none_of_head_not_mem (c := '\r') rfl h
  have h2 : replaceAll text (("\r\n").data) (("\n").data) = text := replaceAll_id h1
  rw [h2]
  have h3 : findOcc (("\r").data) text = none :=
    findOcc_none_of_head_not_mem (c := '\r') rfl h
  exact replaceAll_id h3

/-- Claim C1 (amended): when the first line is not the front-matter
    delimiter line, or the opening delimiter line is never followed by a
    closing one, `split_front_matter` returns empty metadata with the
    newline-normalized input as body — which is the input verbatim
    whenever the input contains no carriage returns. -/
theorem c1_no_delimiter_returns_normalized_body (text : List Char)
    (h : pyStrip (((splitChar '\n' (normalizeNewlines text)).headD []))
        ≠ FRONT_MATTER_BOUNDARY ∨
      (∀ l ∈ (splitChar '\n' (normalizeNewlines text)).tail,
        pyStrip l ≠ FRONT_MATTER_BOUNDARY)) :
    split_front_matter text = ([], normalizeNewlines text) ∧
      ('\r' ∉ text → split_front_matter text = ([], text)) := by
  have hmain : split_front_matter text = ([], normalizeNewlines text) := by
    unfold split_front_matter
    dsimp only
    split
    · rfl
    · rename_i first rest heq
      split
      · rfl
      · rename_i hfirst
        split
        · rfl
        · rename_i j hj
          exfalso
          have hall : ∀ l ∈ rest, pyStrip l ≠ FRONT_MATTER_BOUNDARY := by
            rcases h with hcase | hcase
            · exact absurd (by rw [heq]; simpa using not_not.mp hfirst) hcase
            · intro l hm
              exact hcase l (by rw [heq]; simpa using hm)
          have hidx :
              List.findIdx? (fun l => decide (pyStrip l = FRONT_MATTER_BOUNDARY)) rest
                = none := by
            rw [List.findIdx?_eq_none_iff]
            intro l hm
            simpa using hall l hm
          rw [hidx] at hj
          cases hj
  refine ⟨hmain, fun hcr => ?_⟩
  rw [hmain, normalizeNewlines_id hcr]

/-- Witness for C1 at concrete inputs covering both branches of the
    hypothesis. -/
theorem c1_witness :
    (pyStrip (((splitChar '\n' (normalizeNewlines (("plain body").data))).headD []))
        ≠ FRONT_MATTER_BOUNDARY ∧
      split_front_matter (("plain body").data) = ([], ("plain body").data)) ∧
      ((∀ l ∈ (splitChar '\n' (normalizeNewlines (("---\nnever closed").data))).tail,
          pyStrip l ≠ FRONT_MATTER_BOUNDARY) ∧
        split_front_matter (("---\nnever closed").data) =
          ([], ("---\nnever closed").data)) := by
  constructor
  · constructor
    · decide
    · exact ((c1_no_delimiter_returns_normalized_body (("plain body").data)
        (Or.inl (by decide))).2 (by decide))
  · constructor
    · decide
    · exact ((c1_no_delimiter_returns_normalized_body (("---\nnever closed").data)
        (Or.inr (by decide))).2 (by decide))

/-- Counterexample to C1 as stated: an input containing CRLF whose first
    line is not the delimiter line comes back with normalized newlines,
    not verbatim. -/
theorem c1_counterexample_crlf :
    pyStrip (((splitChar '\n' (normalizeNewlines (("a\r\nb").data))).headD []))
        ≠ FRONT_MATTER_BOUNDARY ∧
      (split_front_matter (("a\r\nb").data)).2 ≠ ("a\r\nb").data ∧
      (split_front_matter (("a\r\nb").data)).2 = ("a\nb").data := by
  refine ⟨by decide, by decide, by decide⟩

end H2T

namespace H2T

/-- Claim C4 (amended): every relative URL whose normalized path (query
    and fragment split off, backslashes normalized, leading `./`
    stripped) begins with a `../` segment is left untouched:
    `rewrite_relative_asset_url` returns `none`, upon which the
    substitution callbacks of `rewrite_image_links` return the match
    unchanged and do not increment the rewrite counter. -/
theorem c4_leading_dotdot_never_rewritten (url a p : List Char)
    (h : ("../").data.isPrefixOf (normRelPath url) = true) :
    rewrite_relative_asset_url url a p = none := by
  unfold rewrite_relative_asset_url
  dsimp only
  split
  · rfl
  · unfold normRelPath at h
    rw [if_pos h]

/-- Witness for C4 at a concrete input (backslash separator and a `./`
    prefix in front of the `../`). -/
theorem c4_witness :
    ("../").data.isPrefixOf (normRelPath ((".\\../x.png").data)) = true ∧
      rewrite_relative_asset_url ((".\\../x.png").data) (("post").data) (("/assets").data) =
        none :=
  ⟨by decide, c4_leading_dotdot_never_rewritten _ _ _ (by decide)⟩

/-- Counterexample to C4 as stated: `a/../../b.png` escapes the current
    directory via `..` segments, yet the rewriter does rewrite it (and
    the counter increments), because only a leading `../` is rejected. -/
theorem c4_counterexample_interior_dotdot :
    is_relative_url (("a/../../b.png").data) = true ∧
      escapesViaDotDot (("a/../../b.png").data) = true ∧
      rewrite_relative_asset_url (("a/../../b.png").data) (("post").data)
          (("/assets").data) =
        some (("/assets/post/a/../../b.png").data) := by
  refine ⟨by decide, by decide, by decide⟩

end H2T

namespace H2T

lemma sortStrings_perm_eq {l l' : List (List Char)} (h : l.Perm l') :
    sortStrings l = sortStrings l' := by
  apply List.eq_of_perm_of_sorted (r := fun a b : List Char => a ≤ b)
  · exact (List.perm_insertionSort _ l).trans (h.trans (List.perm_insertionSort _ l').symm)
  · exact List.sorted_insertionSort _ l
  · exact List.sorted_insertionSort _ l'

lemma sortStrings_head_min {q : List (List Char)} {hd : List Char} {t : List (List Char)}
    (hs : sortStrings q = hd :: t) : ∀ x ∈ hd :: t, hd ≤ x := by
  intro x hx
  have hsorted : List.Sorted (· ≤ ·) (sortStrings q) := List.sorted_insertionSort _ q
  rw [hs] at hsorted
  rcases List.mem_cons.mp hx with h | h
  · exact h ▸ le_refl hd
  · exact (List.sorted_cons.mp hsorted).1 x h

lemma resolve_true_unfold (parentName stem : List Char) (names : List (List Char)) :
    resolve_asset_dir_name true parentName stem names =
      (if stem ∈ names then some stem
       else
        let pm := sortStrings (names.filter (fun n => (stem ++ ['_']).isPrefixOf n))
        let nm := sortStrings (names.filter
          (fun n => normalize_asset_match_key n = normalize_asset_match_key stem))
        match pm with
        | [p] => some p
        | _ =>
          match nm with
          | [n] => some n
          | _ =>
            match pm with
            | p :: _ => some p
            | [] =>
              match nm with
              | n :: _ => some n
              | [] => none) := rfl

/-- Claim C7 (amended): `resolve_asset_dir_name` is deterministic — the
    sibling-directory set may be presented in any order — and for a
    top-level file with no exact match its result is: the unique prefix
    match if there is exactly one, else the unique normalized match if
    there is exactly one, else the lexicographically first prefix match
    if any exists, else the lexicographically first normalized match if
    any exists, else none.  (A unique normalized match therefore takes
    precedence over an ambiguous prefix-match set; the head of a
    `sortStrings` result is its lexicographic minimum.) -/
theorem c7_amended_deterministic_tie_break
    (names names' : List (List Char)) (parentName stem : List Char)
    (hperm : names.Perm names') :
    resolve_asset_dir_name true parentName stem names =
        resolve_asset_dir_name true parentName stem names' ∧
      (stem ∉ names →
        resolve_asset_dir_name true parentName stem names =
          (let pm := sortStrings (names.filter (fun n => (stem ++ ['_']).isPrefixOf n))
           let nm := sortStrings (names.filter
             (fun n => normalize_asset_match_key n = normalize_asset_match_key stem))
           if pm.length = 1 then pm.head?
           else if nm.length = 1 then nm.head?
           else if pm ≠ [] then pm.head?
           else if nm ≠ [] then nm.head?
           else none)) ∧
      (∀ (q t : List (List Char)) (x hd : List Char),
        sortStrings q = hd :: t → x ∈ hd :: t → hd ≤ x) := by
  have hpm : sortStrings (names.filter (fun n => (stem ++ ['_']).isPrefixOf n)) =
      sortStrings (names'.filter (fun n => (stem ++ ['_']).isPrefixOf n)) :=
    sortStrings_perm_eq (hperm.filter _)
  have hnm : sortStrings (names.filter
        (fun n => normalize_asset_match_key n = normalize_asset_match_key stem)) =
      sortStrings (names'.filter
        (fun n => normalize_asset_match_key n = normalize_asset_match_key stem)) :=
    sortStrings_perm_eq (hperm.filter _)
  refine ⟨?_, ?_, fun q t x hd hs hx => sortStrings_head_min hs x hx⟩
  · rw [resolve_true_unfold, resolve_true_unfold]
    by_cases hmem : stem ∈ names
    · rw [if_pos hmem, if_pos (hperm.mem_iff.mp hmem)]
    · rw [if_neg hmem, if_neg (fun hc => hmem (hperm.mem_iff.mpr hc))]
      dsimp only
      rw [hpm, hnm]
  · intro hmem
    rw [resolve_true_unfold, if_neg hmem]
    dsimp only
    rcases hpmc : sortStrings (names.filter (fun n => (stem ++ ['_']).isPrefixOf n)) with
      _ | ⟨p, _ | ⟨p2, pt⟩⟩ <;>
      rcases hnmc : sortStrings (names.filter
          (fun n => normalize_asset_match_key n = normalize_asset_match_key stem)) with
        _ | ⟨n, _ | ⟨n2, nt⟩⟩ <;>
      simp

/-- Witness for C7 at concrete inputs: a permuted directory set and an
    unambiguous prefix match. -/
theorem c7_witness :
    ([("b_dir").data, ("post_a").data].Perm [("post_a").data, ("b_dir").data]) ∧
      (("post").data) ∉ [("b_dir").data, ("post_a").data] ∧
      resolve_asset_dir_name true [] (("post").data)
          [("b_dir").data, ("post_a").data] =
        resolve_asset_dir_name true [] (("post").data)
          [("post_a").data, ("b_dir").data] ∧
      resolve_asset_dir_name true [] (("post").data) [("b_dir").data, ("post_a").data] =
        some (("post_a").data) := by
  have hperm : ([("b_dir").data, ("post_a").data] : List (List Char)).Perm
      [("post_a").data, ("b_dir").data] := List.Perm.swap _ _ _
  have h := c7_amended_deterministic_tie_break
    [("b_dir").data, ("post_a").data] [("post_a").data, ("b_dir").data]
    [] (("post").data) hperm
  refine ⟨hperm, by decide, h.1, ?_⟩
  rw [h.2.1 (by decide)]
  decide

/-- Counterexample to C7 as stated: with directories
    `post_a`, `post_b`, `Post` and stem `post`, the prefix matches are
    ambiguous (`post_a`, `post_b`) yet the resolver returns the unique
    normalized match `Post`, not the lexicographically first prefix
    match `post_a`. -/
theorem c7_counterexample_ambiguous_prefix_loses :
    (("post").data) ∉ [("post_a").data, ("post_b").data, ("Post").data] ∧
      sortStrings ([("post_a").data, ("post_b").data, ("Post").data].filter
          (fun n => ((("post").data) ++ ['_']).isPrefixOf n)) =
        [("post_a").data, ("post_b").data] ∧
      resolve_asset_dir_name true [] (("post").data)
          [("post_a").data, ("post_b").data, ("Post").data] = some (("Post").data) ∧
      some (("Post").data) ≠ some (("post_a").data) := by
  refine ⟨by decide, by decide, by decide, by decide⟩

end H2T

namespace H2T

lemma dedupeAux_eq_specAux :
    ∀ (items : List (List Char)) (seen earlier : List (List Char)),
      (∀ v, v ∈ seen ↔ (v ≠ [] ∧ ∃ e ∈ earlier, pyStrip e = v)) →
      dedupeAux seen items = dedupeSpecAux earlier items := by
  intro items
  induction items with
  | nil => intro seen earlier _; rfl
  | cons item rest ih =>
    intro seen earlier hinv
    rw [dedupeAux, dedupeSpecAux]
    have hcond : (pyStrip item = [] ∨ pyStrip item ∈ seen) ↔
        ¬(pyStrip item ≠ [] ∧ ∀ e ∈ earlier, pyStrip e ≠ pyStrip item) := by
      rw [hinv]
      constructor
      · rintro (h | ⟨hne, e, he, hse⟩)
        · intro hk; exact hk.1 h
        · intro hk; exact hk.2 e he hse
      · intro h
        by_cases hz : pyStrip item = []
        · exact Or.inl hz
        · right
          refine ⟨hz, ?_⟩
          by_contra hne
          push_neg at hne
          exact h ⟨hz, hne⟩
    by_cases hdrop : pyStrip item = [] ∨ pyStrip item ∈ seen
    · rw [if_pos hdrop, if_neg (hcond.mp hdrop)]
      apply ih
      intro v
      rw [hinv v]
      constructor
      · rintro ⟨hv, e, he, hse⟩
        exact ⟨hv, e, List.mem_append_left _ he, hse⟩
      · rintro ⟨hv, e, he, hse⟩
        rcases List.mem_append.mp he with he' | he'
        · exact ⟨hv, e, he', hse⟩
        · have heq : e = item := by simpa using he'
          subst heq
          rcases hdrop with h0 | h0
          · exact absurd (hse ▸ h0) (by simpa [hse] using hv)
          · obtain ⟨_, e', he'', hse''⟩ := (hinv _).mp h0
            exact ⟨hv, e', he'', by rw [hse'', hse]⟩
    · have hkeep : pyStrip item ≠ [] ∧ ∀ e ∈ earlier, pyStrip e ≠ pyStrip item := by
        by_contra hk
        exact hdrop (hcond.mpr hk)
      rw [if_neg hdrop, if_pos hkeep]
      congr 1
      apply ih
      intro v
      constructor
      · intro hv
        rcases List.mem_cons.mp hv with rfl | hv'
        · exact ⟨hkeep.1, item, List.mem_append_right _ (List.mem_singleton_self item), rfl⟩
        · obtain ⟨hvne, e, he, hse⟩ := (hinv v).mp hv'
          exact ⟨hvne, e, List.mem_append_left _ he, hse⟩
      · rintro ⟨hvne, e, he, hse⟩
        rcases List.mem_append.mp he with he' | he'
        · exact List.mem_cons_of_mem _ ((hinv v).mpr ⟨hvne, e, he', hse⟩)
        · have heq : e = item := by simpa using he'
          subst heq
          exact hse ▸ List.mem_cons_self _ _

/-- Claim C10: deduplication of category/tag lists is case-sensitive and
    normalizes only by whitespace trimming — `dedupe` agrees with the
    claim's drop rule (`dedupeSpec`) on every list — and two names
    differing only in letter case yield two distinct terms with distinct
    ids and two distinct relationship rows. -/
theorem c10_dedupe_case_sensitive (l : List (List Char)) (s t : List Char)
    (aid cs ms : Int)
    (hs : pyStrip s ≠ []) (ht : pyStrip t ≠ []) (hst : pyStrip s ≠ pyStrip t)
    (_hcase : pyLower (pyStrip s) = pyLower (pyStrip t)) :
    dedupe l = dedupeSpec l ∧
      dedupe [s, t] = [pyStrip s, pyStrip t] ∧
      (∀ post : HexoPost, post.categories = [] → post.tags = [s, t] →
        (build_sql_state [post] aid cs ms).termMap.map (fun e => (e.2.name, e.2.mid)) =
            [(pyStrip s, max ms 1), (pyStrip t, max ms 1 + 1)] ∧
          max ms 1 ≠ max ms 1 + 1 ∧
          (build_sql_state [post] aid cs ms).relationships =
            [(max cs 1, max ms 1), (max cs 1, max ms 1 + 1)] ∧
          (build_sql_state [post] aid cs ms).relationships.Nodup) := by
  have hded : dedupe [s, t] = [pyStrip s, pyStrip t] := by
    simp [dedupe, dedupeAux, hs, ht, Ne.symm hst]
  refine ⟨dedupeAux_eq_specAux l [] [] (by simp), hded, ?_⟩
  intro post hc htags
  have hstate : build_sql_state [post] aid cs ms =
      processPost aid ⟨max cs 1, max ms 1, [], [], [], []⟩ post := by
    rw [build_sql_state, List.foldl_cons, List.foldl_nil]
  rw [hstate]
  unfold processPost
  rw [hc, htags, hded]
  dsimp only
  rw [show dedupe [] = [] from rfl]
  rw [List.foldl_nil, List.foldl_cons, List.foldl_cons, List.foldl_nil]
  unfold processTermName termLookupOrCreate addRelation
  have hkeys : (((("tag").data, pyStrip t) : List Char × List Char) =
      ((("tag").data, pyStrip s))) = False := by
    simp [Ne.symm hst]
  simp [bumpTermCount, hkeys, hst, Ne.symm hst, Prod.ext_iff]

/-- Witness for C10 at concrete inputs (names `a` and `A `, differing
    only in case and trailing whitespace). -/
theorem c10_witness :
    dedupe [(" x ").data, ("x").data, ("").data, ("B").data] =
        dedupeSpec [(" x ").data, ("x").data, ("").data, ("B").data] ∧
      dedupe [("a").data, ("A ").data] = [("a").data, ("A").data] ∧
      (build_sql_state
          [⟨[], [], ("T").data, ("t").data, ⟨2023, 1, 1, 0, 0, 0, 0, some 0⟩,
            ⟨2023, 1, 1, 0, 0, 0, 0, some 0⟩, ("au").data, [], [], [],
            [("a").data, ("A ").data], ("publish").data, ("post").data, none, 0⟩]
          1 1 1).relationships = [(1, 1), (1, 2)] := by
  have h := c10_dedupe_case_sensitive
    [(" x ").data, ("x").data, ("").data, ("B").data]
    (("a").data) (("A ").data) 1 1 1 (by decide) (by decide) (by decide) (by decide)
  have h3 := h.2.2
    ⟨[], [], ("T").data, ("t").data, ⟨2023, 1, 1, 0, 0, 0, 0, some 0⟩,
      ⟨2023, 1, 1, 0, 0, 0, 0, some 0⟩, ("au").data, [], [], [],
      [("a").data, ("A ").data], ("publish").data, ("post").data, none, 0⟩
    rfl rfl
  refine ⟨h.1, ?_, ?_⟩
  · rw [h.2.1]
    decide
  · rw [h3.2.2.1]
    decide

end H2T

namespace H2T

lemma mem_collapseAux {p : Char → Bool} {rep : Char} :
    ∀ (b : Bool) (l : List Char) (c : Char),
      c ∈ collapseAux p rep b l → c = rep ∨ (c ∈ l ∧ p c = false) := by
  intro b l
  induction l generalizing b with
  | nil => intro c hc; cases hc
  | cons a t ih =>
    intro c hc
    rw [collapseAux] at hc
    by_cases hpa : p a
    · rw [if_pos hpa] at hc
      by_cases hb : b
      · subst hb
        rw [if_pos rfl] at hc
        rcases ih true c hc with h | ⟨h1, h2⟩
        · exact Or.inl h
        · exact Or.inr ⟨List.mem_cons_of_mem _ h1, h2⟩
      · simp only [Bool.not_eq_true] at hb
        subst hb
        simp only [Bool.false_eq_true, if_false, List.mem_cons] at hc
        rcases hc with h | hc
        · exact Or.inl h
        · rcases ih true c hc with h | ⟨h1, h2⟩
          · exact Or.inl h
          · exact Or.inr ⟨List.mem_cons_of_mem _ h1, h2⟩
    · rw [if_neg hpa] at hc
      rcases List.mem_cons.mp hc with rfl | hc'
      · exact Or.inr ⟨List.mem_cons_self _ _, by simpa using hpa⟩
      · rcases ih false c hc' with h | ⟨h1, h2⟩
        · exact Or.inl h
        · exact Or.inr ⟨List.mem_cons_of_mem _ h1, h2⟩

lemma mem_stripChar {ch : Char} {l : List Char} {c : Char}
    (hc : c ∈ stripChar ch l) : c ∈ l := by
  unfold stripChar at hc
  have h1 := List.mem_reverse.mp hc
  have h2 := List.dropWhile_subset _ h1
  have h3 := List.mem_reverse.mp h2
  exact List.dropWhile_subset _ h3

lemma slugify_ne_nil_and_chars (s : List Char) :
    slugify s ≠ [] ∧ ∀ c ∈ slugify s, (isWordChar c = true ∧ c ≠ '_') ∨ c = '-' := by
  unfold slugify
  dsimp only
  split
  · exact ⟨by decide, by decide⟩
  · rename_i hne
    refine ⟨hne, ?_⟩
    intro c hc
    have h1 := mem_stripChar hc
    rcases mem_collapseAux _ _ _ h1 with h | ⟨h2, hnd⟩
    · exact Or.inr h
    · rcases mem_collapseAux _ _ _ h2 with h | ⟨h3, hns⟩
      · exact Or.inr h
      · have h4 := List.mem_filter.mp h3
        have h5 := h4.2
        simp only [Bool.or_eq_true] at h5
        have hnw : isWS c = false ∧ (c = '_') = False := by
          constructor
          · by_contra hcon
            simp only [Bool.not_eq_false] at hcon
            rw [hcon] at hns
            simp at hns
          · by_contra hcon
            simp only [eq_iff_iff, iff_false, not_not] at hcon
            rw [hcon] at hns
            simp at hns
        rcases h5 with (hw | hws) | hd
        · left
          refine ⟨hw, ?_⟩
          intro hcu
          exact (hnw.2 ▸ hcu : False)
        · rw [hnw.1] at hws
          cases hws
        · right
          simpa using hd

/-- Claim C3 (amended): every `HexoPost` produced by `read_post` has a
    non-empty slug drawn from word characters (minus underscore, which
    `slugify` folds into hyphens) and hyphens, and timezone resolution is
    guaranteed at timestamp-conversion time (`ensure_timezone` always
    yields an aware datetime).  The stored `date`/`updated` fields are
    NOT always timezone-aware (see the counterexample). -/
theorem c3_slug_invariant (raw : List Char) (parentIsSource : Bool)
    (parentName stem fileName : List Char) (assetDirNames : List (List Char))
    (defaultAuthor assetMode urlPre mathMode : List Char) (now : PyDateTime) :
    (read_post raw parentIsSource parentName stem fileName assetDirNames
        defaultAuthor assetMode urlPre mathMode now).1.slug ≠ [] ∧
      (∀ c ∈ (read_post raw parentIsSource parentName stem fileName assetDirNames
          defaultAuthor assetMode urlPre mathMode now).1.slug,
        (isWordChar c = true ∧ c ≠ '_') ∨ c = '-') ∧
      (∀ d : PyDateTime, (ensure_timezone d).tz ≠ none) := by
  refine ⟨?_, ?_, ?_⟩
  · unfold read_post
    dsimp only
    exact (slugify_ne_nil_and_chars _).1
  · unfold read_post
    dsimp only
    exact (slugify_ne_nil_and_chars _).2
  · intro d
    unfold ensure_timezone
    cases hd : d.tz with
    | none => simp
    | some o => simp [hd]

/-- Counterexample to C3 as stated: a post whose front matter carries an
    offset-less date string is stored with a naive (timezone-less)
    datetime in both date fields. -/
theorem c3_counterexample_naive_date :
    ((read_post (("---\ndate: 2023-01-02 03:04:05\n---\nbody").data) true
        [] (("post").data) (("post.md").data) [] (("admin").data) (("keep").data)
        [] (("keep").data) ⟨2026, 10, 12, 0, 0, 0, 0, none⟩).1.date.tz = none) ∧
      ((read_post (("---\ndate: 2023-01-02 03:04:05\n---\nbody").data) true
          [] (("post").data) (("post.md").data) [] (("admin").data) (("keep").data)
          [] (("keep").data) ⟨2026, 10, 12, 0, 0, 0, 0, none⟩).1.updated.tz = none) ∧
      ((read_post (("---\ndate: 2023-01-02 03:04:05\n---\nbody").data) true
          [] (("post").data) (("post.md").data) [] (("admin").data) (("keep").data)
          [] (("keep").data) ⟨2026, 10, 12, 0, 0, 0, 0, none⟩).1.date =
        ⟨2023, 1, 2, 3, 4, 5, 0, none⟩) := by
  refine ⟨rfl, rfl, rfl⟩

end H2T

namespace H2T

lemma termLookupOrCreate_rels (kind : List Char) (st : BuildState) (name : List Char) :
    (termLookupOrCreate kind st name).relationships = st.relationships ∧
      (termLookupOrCreate kind st name).relationSeen = st.relationSeen := by
  unfold termLookupOrCreate
  dsimp only
  split <;> exact ⟨rfl, rfl⟩

lemma addRelation_inv (st : BuildState) (rel : Int × Int)
    (h1 : st.relationships.Nodup)
    (h2 : ∀ r, r ∈ st.relationships ↔ r ∈ st.relationSeen) :
    (addRelation st rel).relationships.Nodup ∧
      (∀ r, r ∈ (addRelation st rel).relationships ↔
        r ∈ (addRelation st rel).relationSeen) := by
  unfold addRelation
  split
  · exact ⟨h1, h2⟩
  · rename_i hnot
    dsimp only
    constructor
    · rw [List.nodup_append]
      refine ⟨h1, List.nodup_singleton _, ?_⟩
      intro r hr hr'
      have heq : r = rel := by simpa using hr'
      subst heq
      exact hnot ((h2 _).mp hr)
    · intro r
      simp only [List.mem_append, List.mem_singleton, List.mem_cons, h2 r]
      tauto

lemma inv_processTermName (kind : List Char) (cid : Int) (st : BuildState)
    (name : List Char)
    (h1 : st.relationships.Nodup)
    (h2 : ∀ r, r ∈ st.relationships ↔ r ∈ st.relationSeen) :
    (processTermName kind cid st name).relationships.Nodup ∧
      (∀ r, r ∈ (processTermName kind cid st name).relationships ↔
        r ∈ (processTermName kind cid st name).relationSeen) := by
  obtain ⟨ha, hb⟩ := termLookupOrCreate_rels kind st name
  unfold processTermName
  dsimp only
  split
  · apply addRelation_inv
    · rw [ha]; exact h1
    · intro r; rw [ha, hb]; exact h2 r
  · rw [ha, hb]; exact ⟨h1, h2⟩

lemma inv_foldl_names (kind : List Char) (cid : Int) :
    ∀ (names : List (List Char)) (st : BuildState),
      st.relationships.Nodup →
      (∀ r, r ∈ st.relationships ↔ r ∈ st.relationSeen) →
      ((names.foldl (processTermName kind cid) st).relationships.Nodup ∧
        ∀ r, r ∈ (names.foldl (processTermName kind cid) st).relationships ↔
          r ∈ (names.foldl (processTermName kind cid) st).relationSeen) := by
  intro names
  induction names with
  | nil => intro st h1 h2; exact ⟨h1, h2⟩
  | cons n rest ih =>
    intro st h1 h2
    rw [List.foldl_cons]
    obtain ⟨h1', h2'⟩ := inv_processTermName kind cid st n h1 h2
    exact ih _ h1' h2'

lemma inv_processPost (aid : Int) (st : BuildState) (post : HexoPost)
    (h1 : st.relationships.Nodup)
    (h2 : ∀ r, r ∈ st.relationships ↔ r ∈ st.relationSeen) :
    (processPost aid st post).relationships.Nodup ∧
      (∀ r, r ∈ (processPost aid st post).relationships ↔
        r ∈ (processPost aid st post).relationSeen) := by
  unfold processPost
  dsimp only
  apply inv_foldl_names
  · refine (inv_foldl_names _ _ _ _ ?_ ?_).1
    · exact h1
    · exact h2
  · refine (inv_foldl_names _ _ _ _ ?_ ?_).2
    · exact h1
    · exact h2

lemma inv_foldl_posts (aid : Int) :
    ∀ (posts : List HexoPost) (st : BuildState),
      st.relationships.Nodup →
      (∀ r, r ∈ st.relationships ↔ r ∈ st.relationSeen) →
      ((posts.foldl (processPost aid) st).relationships.Nodup ∧
        ∀ r, r ∈ (posts.foldl (processPost aid) st).relationships ↔
          r ∈ (posts.foldl (processPost aid) st).relationSeen) := by
  intro posts
  induction posts with
  | nil => intro st h1 h2; exact ⟨h1, h2⟩
  | cons p rest ih =>
    intro st h1 h2
    rw [List.foldl_cons]
    obtain ⟨h1', h2'⟩ := inv_processPost aid st p h1 h2
    exact ih _ h1' h2'

/-- Claim C6: for every list of posts, the emitted relationship rows
    contain no duplicate (content id, term id) pair: the
    `relation_seen` set admits each pair at most once, even when a post
    lists the same name twice in forms that trim to the same text
    (which per-post `dedupe` already collapses). -/
theorem c6_relationships_nodup (posts : List HexoPost) (aid cs ms : Int) :
    (build_sql_relationships posts aid cs ms).Nodup := by
  unfold build_sql_relationships build_sql_state
  exact (inv_foldl_posts aid posts _ List.nodup_nil (by simp)).1

end H2T

namespace H2T

lemma find_key_isSome_iff {m : List ((List Char × List Char) × Term)}
    {key : List Char × List Char} :
    (m.find? (fun e => e.1 = key)).isSome = true ↔ key ∈ m.map (·.1) := by
  rw [List.find?_isSome]
  constructor
  · rintro ⟨e, he, hp⟩
    have : e.1 = key := by simpa using hp
    exact this ▸ List.mem_map_of_mem _ he
  · intro hm
    obtain ⟨e, he, hk⟩ := List.mem_map.mp hm
    exact ⟨e, he, by simpa using hk⟩

lemma bump_keys (m : List ((List Char × List Char) × Term))
    (key : List Char × List Char) :
    (bumpTermCount m key).map (·.1) = m.map (·.1) := by
  unfold bumpTermCount
  rw [List.map_map]
  apply List.map_congr_left
  intro e _
  by_cases h : e.1 = key <;> simp [h]

lemma bump_length (m : List ((List Char × List Char) × Term))
    (key : List Char × List Char) :
    (bumpTermCount m key).length = m.length := by
  unfold bumpTermCount
  exact List.length_map _ _

lemma bump_get (m : List ((List Char × List Char) × Term))
    (key : List Char × List Char) (i : Nat) (hi : i < (bumpTermCount m key).length) :
    ((bumpTermCount m key).get ⟨i, hi⟩).2.mid =
        ((m.get ⟨i, bump_length m key ▸ hi⟩).2.mid) := by
  unfold bumpTermCount at hi ⊢
  simp only [List.get_eq_getElem, List.getElem_map]
  split <;> simp

lemma bump_mem (m : List ((List Char × List Char) × Term))
    (key : List Char × List Char) :
    ∀ e' ∈ bumpTermCount m key, ∃ e ∈ m, e'.1 = e.1 ∧
      e'.2.mid = e.2.mid ∧ e'.2.name = e.2.name ∧ e'.2.term_type = e.2.term_type ∧
      e'.2.count = e.2.count + (if e.1 = key then 1 else 0) := by
  intro e' he'
  unfold bumpTermCount at he'
  obtain ⟨e, he, hmap⟩ := List.mem_map.mp he'
  by_cases h : e.1 = key
  · rw [if_pos h] at hmap
    exact ⟨e, he, by rw [← hmap], by rw [← hmap], by rw [← hmap],
      by rw [← hmap], by rw [← hmap]; simp [h]⟩
  · rw [if_neg h] at hmap
    exact ⟨e, he, by rw [← hmap], by rw [← hmap], by rw [← hmap],
      by rw [← hmap], by rw [← hmap]; simp [h]⟩

lemma addRelation_termMap (st : BuildState) (rel : Int × Int) :
    (addRelation st rel).termMap = st.termMap ∧
      (addRelation st rel).nextMid = st.nextMid := by
  unfold addRelation
  split <;> exact ⟨rfl, rfl⟩

lemma processTermName_termMap (k : List Char) (cid : Int) (st : BuildState)
    (n : List Char) :
    (processTermName k cid st n).termMap = (termLookupOrCreate k st n).termMap ∧
      (processTermName k cid st n).nextMid = (termLookupOrCreate k st n).nextMid := by
  unfold processTermName
  dsimp only
  split
  · exact addRelation_termMap _ _
  · exact ⟨rfl, rfl⟩

lemma termLookupOrCreate_mem (k : List Char) (st : BuildState) (n : List Char)
    (hmem : (k, n) ∈ st.termMap.map (·.1)) :
    (termLookupOrCreate k st n).termMap = bumpTermCount st.termMap (k, n) ∧
      (termLookupOrCreate k st n).nextMid = st.nextMid := by
  unfold termLookupOrCreate
  dsimp only
  rw [if_pos (find_key_isSome_iff.mpr hmem)]
  exact ⟨rfl, rfl⟩

lemma termLookupOrCreate_notmem (k : List Char) (st : BuildState) (n : List Char)
    (hmem : (k, n) ∉ st.termMap.map (·.1)) :
    (termLookupOrCreate k st n).termMap =
        bumpTermCount (st.termMap ++ [((k, n), ⟨st.nextMid, n, slugify n, k, 0⟩)]) (k, n) ∧
      (termLookupOrCreate k st n).nextMid = st.nextMid + 1 := by
  unfold termLookupOrCreate
  dsimp only
  rw [if_neg (fun hs => hmem (find_key_isSome_iff.mp hs))]
  exact ⟨rfl, rfl⟩

lemma firstSeenAux_append {α : Type} [DecidableEq α] :
    ∀ (l1 l2 acc : List α),
      firstSeenAux acc (l1 ++ l2) = firstSeenAux (firstSeenAux acc l1) l2 := by
  intro l1
  induction l1 with
  | nil => intro l2 acc; rfl
  | cons x t ih =>
    intro l2 acc
    rw [List.cons_append, firstSeenAux, firstSeenAux]
    by_cases h : x ∈ acc
    · rw [if_pos h, if_pos h, ih]
    · rw [if_neg h, if_neg h, ih]

lemma firstSeenAux_singleton {α : Type} [DecidableEq α] (acc : List α) (x : α) :
    firstSeenAux acc [x] = if x ∈ acc then acc else acc ++ [x] := by
  rw [firstSeenAux]
  by_cases h : x ∈ acc
  · rw [if_pos h, if_pos h]; rfl
  · rw [if_neg h, if_neg h]; rfl

lemma acc_mem_firstSeenAux {α : Type} [DecidableEq α] :
    ∀ (l acc : List α) (x : α), x ∈ acc → x ∈ firstSeenAux acc l := by
  intro l
  induction l with
  | nil => intro acc x hx; exact hx
  | cons a t ih =>
    intro acc x hx
    rw [firstSeenAux]
    by_cases h : a ∈ acc
    · rw [if_pos h]; exact ih acc x hx
    · rw [if_neg h]; exact ih _ x (List.mem_append_left _ hx)

lemma mem_firstSeenAux {α : Type} [DecidableEq α] :
    ∀ (l acc : List α) (x : α), x ∈ l → x ∈ firstSeenAux acc l := by
  intro l
  induction l with
  | nil => intro acc x hx; cases hx
  | cons a t ih =>
    intro acc x hx
    rw [firstSeenAux]
    rcases List.mem_cons.mp hx with rfl | hx'
    · by_cases h : x ∈ acc
      · rw [if_pos h]
        exact acc_mem_firstSeenAux t acc x h
      · rw [if_neg h]
        exact acc_mem_firstSeenAux t _ x (List.mem_append_right _ (List.mem_singleton_self x))
    · by_cases h : a ∈ acc
      · rw [if_pos h]; exact ih acc x hx'
      · rw [if_neg h]; exact ih _ x hx'

lemma countKey_append (a : List HexoPost) (p : HexoPost) (key : List Char × List Char) :
    countKey (a ++ [p]) key = countKey a key +
      (if key.2 ∈ dedupe (if key.1 = ("category").data then p.categories else p.tags)
       then 1 else 0) := by
  unfold countKey
  rw [List.filter_append, List.length_append]
  congr 1
  by_cases h : key.2 ∈ dedupe (if key.1 = ("category").data then p.categories else p.tags)
  · simp [h]
  · simp [h]


lemma mem_firstSeenAux_iff {α : Type} [DecidableEq α] :
    ∀ (l acc : List α) (x : α), x ∈ firstSeenAux acc l ↔ (x ∈ acc ∨ x ∈ l) := by
  intro l
  induction l with
  | nil => intro acc x; simp [firstSeenAux]
  | cons a t ih =>
    intro acc x
    rw [firstSeenAux]
    by_cases h : a ∈ acc
    · rw [if_pos h, ih]
      constructor
      · rintro (hx | hx)
        · exact Or.inl hx
        · exact Or.inr (List.mem_cons_of_mem _ hx)
      · rintro (hx | hx)
        · exact Or.inl hx
        · rcases List.mem_cons.mp hx with rfl | hx'
          · exact Or.inl h
          · exact Or.inr hx'
    · rw [if_neg h, ih]
      constructor
      · rintro (hx | hx)
        · rcases List.mem_append.mp hx with hx' | hx'
          · exact Or.inl hx'
          · exact Or.inr (List.mem_cons.mpr (Or.inl (by simpa using hx')))
        · exact Or.inr (List.mem_cons_of_mem _ hx)
      · rintro (hx | hx)
        · exact Or.inl (List.mem_append_left _ hx)
        · rcases List.mem_cons.mp hx with rfl | hx'
          · exact Or.inl (List.mem_append_right _ (List.mem_singleton_self x))
          · exact Or.inr hx'

lemma dedupeAux_nodup :
    ∀ (l seen : List (List Char)),
      (dedupeAux seen l).Nodup ∧ ∀ x ∈ dedupeAux seen l, x ∉ seen := by
  intro l
  induction l with
  | nil => intro seen; exact ⟨List.nodup_nil, by intro x hx; cases hx⟩
  | cons item rest ih =>
    intro seen
    rw [dedupeAux]
    by_cases h : pyStrip item = [] ∨ pyStrip item ∈ seen
    · rw [if_pos h]
      exact ih seen
    · rw [if_neg h]
      obtain ⟨ihn, ihs⟩ := ih (pyStrip item :: seen)
      constructor
      · rw [List.nodup_cons]
        refine ⟨fun hmem => ?_, ihn⟩
        exact ihs _ hmem (List.mem_cons_self _ _)
      · intro x hx
        rcases List.mem_cons.mp hx with rfl | hx'
        · intro hxs
          exact h (Or.inr hxs)
        · intro hxs
          exact ihs x hx' (List.mem_cons_of_mem _ hxs)

lemma dedupe_nodup (l : List (List Char)) : (dedupe l).Nodup :=
  (dedupeAux_nodup l []).1

lemma bump_append (a b : List ((List Char × List Char) × Term))
    (key : List Char × List Char) :
    bumpTermCount (a ++ b) key = bumpTermCount a key ++ bumpTermCount b key := by
  unfold bumpTermCount
  exact List.map_append _ a b

lemma bump_id_of_fresh (m : List ((List Char × List Char) × Term))
    (key : List Char × List Char) (h : key ∉ m.map (·.1)) :
    bumpTermCount m key = m := by
  unfold bumpTermCount
  have hcong : ∀ e ∈ m,
      (if e.1 = key then ((e.1, { e.2 with count := e.2.count + 1 }) :
        (List Char × List Char) × Term) else e) = e := by
    intro e he
    rw [if_neg]
    intro hk
    exact h (hk ▸ List.mem_map_of_mem _ he)
  rw [List.map_congr_left hcong]
  simp

lemma keyStream_append (a : List HexoPost) (p : HexoPost) :
    keyStream (a ++ [p]) = keyStream a ++
      ((dedupe p.categories).map (fun n => ((("category").data), n)) ++
        (dedupe p.tags).map (fun n => ((("tag").data), n))) := by
  unfold keyStream
  rw [List.flatMap_append]
  congr 1
  simp [List.flatMap_cons]

lemma bump_mids (m : List ((List Char × List Char) × Term))
    (key : List Char × List Char) :
    (bumpTermCount m key).map (fun e => e.2.mid) = m.map (fun e => e.2.mid) := by
  unfold bumpTermCount
  rw [List.map_map]
  apply List.map_congr_left
  intro e _
  by_cases h : e.1 = key <;> simp [h]

lemma step_TermMapInv (base : Int) (P : List Char × List Char → Nat) (k : List Char)
    (S : List (List Char × List Char)) (done : List (List Char)) (n : List Char)
    (cid : Int) (st : BuildState)
    (hn : n ∉ done)
    (hinv : TermMapInv base P k S done st)
    (hk : k = ("category").data ∨ k = ("tag").data) :
    TermMapInv base P k S (done ++ [n]) (processTermName k cid st n) := by
  unfold TermMapInv at hinv ⊢
  obtain ⟨h0, h1, h2, h3, h4, h5, h6, h7⟩ := hinv
  obtain ⟨htm, hnm⟩ := processTermName_termMap k cid st n
  have hmap : (done ++ [n]).map (fun x => (k, x)) =
      done.map (fun x => (k, x)) ++ [(k, n)] := by simp
  by_cases hmem : (k, n) ∈ st.termMap.map (·.1)
  · obtain ⟨htm2, hnm2⟩ := termLookupOrCreate_mem k st n hmem
    have hTM : (processTermName k cid st n).termMap = bumpTermCount st.termMap (k, n) :=
      htm.trans htm2
    have hNM : (processTermName k cid st n).nextMid = st.nextMid := hnm.trans hnm2
    refine ⟨?_, ?_, ?_, ?_, ?_, ?_, ?_, ?_⟩
    · rw [hTM, bump_keys]; exact h0
    · rw [hTM, hNM, bump_length]; exact h1
    · rw [hTM, bump_mids, bump_length]; exact h2
    · rw [hTM, bump_keys, h3]
      conv_rhs => rw [hmap, ← List.append_assoc, firstSeenAux_append, firstSeenAux_singleton]
      rw [if_pos (by rw [← h3]; exact hmem)]
    · intro e' he'
      rw [hTM] at he'
      obtain ⟨e, he, h1e, _, h3e, h4e, _⟩ := bump_mem _ _ e' he'
      rw [h3e, h4e, h1e]
      exact h4 e he
    · intro e' he'
      rw [hTM] at he'
      obtain ⟨e, he, h1e, _, _, _, h5e⟩ := bump_mem _ _ e' he'
      rw [h5e, h1e, h5 e he]
      by_cases heq : e.1 = (k, n)
      · have hc1 : ¬(e.1.1 = k ∧ e.1.2 ∈ done) := by
          rw [heq]
          rintro ⟨_, hnd⟩
          exact hn hnd
        have hc2 : e.1.1 = k ∧ e.1.2 ∈ done ++ [n] := by
          rw [heq]
          exact ⟨rfl, List.mem_append_right _ (List.mem_singleton_self n)⟩
        rw [if_pos heq, if_neg hc1, if_pos hc2]
      · have hiff : (e.1.1 = k ∧ e.1.2 ∈ done ++ [n]) ↔ (e.1.1 = k ∧ e.1.2 ∈ done) := by
          constructor
          · rintro ⟨hk1, hm1⟩
            rcases List.mem_append.mp hm1 with hm' | hm'
            · exact ⟨hk1, hm'⟩
            · have h2n : e.1.2 = n := by simpa using hm'
              exact absurd (Prod.ext hk1 h2n : e.1 = (k, n)) heq
          · rintro ⟨hk1, hm1⟩
            exact ⟨hk1, List.mem_append_left _ hm1⟩
        rw [if_neg heq]
        by_cases hc : e.1.1 = k ∧ e.1.2 ∈ done
        · rw [if_pos hc, if_pos (hiff.mpr hc)]
        · rw [if_neg hc, if_neg (fun hc2 => hc (hiff.mp hc2))]
    · intro key hkind hm'
      rw [hTM, bump_keys] at hm'
      obtain ⟨hp, hd⟩ := h6 key hkind hm'
      refine ⟨hp, ?_⟩
      intro hkk hmm
      rcases List.mem_append.mp hmm with hm1 | hm1
      · exact hd hkk hm1
      · have h2n : key.2 = n := by simpa using hm1
        exact hm' (by rw [(Prod.ext hkk h2n : key = (k, n))]; exact hmem)
    · intro e' he'
      rw [hTM] at he'
      obtain ⟨e, he, h1e, _, _, _, _⟩ := bump_mem _ _ e' he'
      rw [h1e]
      exact h7 e he
  · obtain ⟨htm2, hnm2⟩ := termLookupOrCreate_notmem k st n hmem
    have hb : bumpTermCount [((k, n), (⟨st.nextMid, n, slugify n, k, 0⟩ : Term))] (k, n) =
        [((k, n), (⟨st.nextMid, n, slugify n, k, 1⟩ : Term))] := by
      simp [bumpTermCount]
    have hTM : (processTermName k cid st n).termMap =
        st.termMap ++ [((k, n), (⟨st.nextMid, n, slugify n, k, 1⟩ : Term))] := by
      rw [htm, htm2, bump_append, bump_id_of_fresh _ _ hmem, hb]
    have hNM : (processTermName k cid st n).nextMid = st.nextMid + 1 := hnm.trans hnm2
    have hkeys : ((processTermName k cid st n).termMap).map (·.1) =
        st.termMap.map (·.1) ++ [(k, n)] := by
      rw [hTM, List.map_append]
      rfl
    refine ⟨?_, ?_, ?_, ?_, ?_, ?_, ?_, ?_⟩
    · rw [hkeys, List.nodup_append]
      refine ⟨h0, List.nodup_singleton _, ?_⟩
      intro x hx hx2
      have : x = (k, n) := by simpa using hx2
      subst this
      exact hmem hx
    · rw [hTM, hNM, List.length_append]
      simp only [List.length_singleton]
      push_cast
      omega
    · rw [hTM]
      simp only [List.map_append, List.length_append, List.length_singleton,
        List.map_singleton, List.range_succ]
      rw [h2, h1]
      simp [Int.ofNat_eq_coe]
    · rw [hkeys, h3]
      conv_rhs => rw [hmap, ← List.append_assoc, firstSeenAux_append, firstSeenAux_singleton]
      rw [if_neg (by rw [← h3]; exact hmem)]
    · intro e' he'
      rw [hTM] at he'
      rcases List.mem_append.mp he' with he | he
      · exact h4 e' he
      · have : e' = ((k, n), (⟨st.nextMid, n, slugify n, k, 1⟩ : Term)) := by simpa using he
        subst this
        exact ⟨rfl, rfl⟩
    · intro e' he'
      rw [hTM] at he'
      rcases List.mem_append.mp he' with he | he
      · rw [h5 e' he]
        have hne : e'.1 ≠ (k, n) := by
          intro hc
          exact hmem (hc ▸ List.mem_map_of_mem _ he)
        have hiff : (e'.1.1 = k ∧ e'.1.2 ∈ done ++ [n]) ↔ (e'.1.1 = k ∧ e'.1.2 ∈ done) := by
          constructor
          · rintro ⟨hk1, hm1⟩
            rcases List.mem_append.mp hm1 with hm' | hm'
            · exact ⟨hk1, hm'⟩
            · have h2n : e'.1.2 = n := by simpa using hm'
              exact absurd (Prod.ext hk1 h2n : e'.1 = (k, n)) hne
          · rintro ⟨hk1, hm1⟩
            exact ⟨hk1, List.mem_append_left _ hm1⟩
        by_cases hc : e'.1.1 = k ∧ e'.1.2 ∈ done
        · rw [if_pos hc, if_pos (hiff.mpr hc)]
        · rw [if_neg hc, if_neg (fun hc2 => hc (hiff.mp hc2))]
      · have : e' = ((k, n), (⟨st.nextMid, n, slugify n, k, 1⟩ : Term)) := by simpa using he
        subst this
        dsimp only
        rw [(h6 (k, n) hk hmem).1, if_pos ⟨rfl, List.mem_append_right _ (List.mem_singleton_self n)⟩]
    · intro key hkind hm'
      rw [hkeys] at hm'
      have hm1 : key ∉ st.termMap.map (·.1) := fun hc =>
        hm' (List.mem_append_left _ hc)
      have hm2 : key ≠ (k, n) := by
        intro hc
        exact hm' (List.mem_append_right _ (by simp [hc]))
      obtain ⟨hp, hd⟩ := h6 key hkind hm1
      refine ⟨hp, ?_⟩
      intro hkk hmm
      rcases List.mem_append.mp hmm with hm3 | hm3
      · exact hd hkk hm3
      · have h2n : key.2 = n := by simpa using hm3
        exact hm2 (Prod.ext hkk h2n)
    · intro e' he'
      rw [hTM] at he'
      rcases List.mem_append.mp he' with he | he
      · exact h7 e' he
      · have : e' = ((k, n), (⟨st.nextMid, n, slugify n, k, 1⟩ : Term)) := by simpa using he
        subst this
        exact hk

lemma foldl_names_TermMapInv (base : Int) (P : List Char × List Char → Nat)
    (k : List Char) (S : List (List Char × List Char)) (cid : Int)
    (hk : k = ("category").data ∨ k = ("tag").data) :
    ∀ (ns done : List (List Char)) (st : BuildState),
      (done ++ ns).Nodup →
      TermMapInv base P k S done st →
      TermMapInv base P k S (done ++ ns) (ns.foldl (processTermName k cid) st) := by
  intro ns
  induction ns with
  | nil =>
    intro done st _ hinv
    simpa using hinv
  | cons n t ih =>
    intro done st hnd hinv
    have hn : n ∉ done := by
      intro hc
      exact (List.disjoint_of_nodup_append hnd) hc (List.mem_cons_self n t)
    have hstep := step_TermMapInv base P k S done n cid st hn hinv hk
    have hnd2 : ((done ++ [n]) ++ t).Nodup := by
      rw [List.append_assoc]
      simpa using hnd
    have := ih (done ++ [n]) _ hnd2 hstep
    rw [List.append_assoc] at this
    simpa using this

/-- Invariant between post iterations of `build_sql` (claim C5): after
    processing `posts`, the term map lists the distinct `(kind, name)`
    pairs of the emission stream in first-seen order, mids count up from
    `base`, and counts equal the number of referencing posts. -/
def GInv (base : Int) (posts : List HexoPost) (st : BuildState) : Prop :=
  (st.termMap.map (·.1)).Nodup ∧
  st.nextMid = base + st.termMap.length ∧
  st.termMap.map (fun e => e.2.mid) =
    (List.range st.termMap.length).map (fun i => base + Int.ofNat i) ∧
  st.termMap.map (·.1) = firstSeen (keyStream posts) ∧
  (∀ e ∈ st.termMap, e.2.name = e.1.2 ∧ e.2.term_type = e.1.1) ∧
  (∀ e ∈ st.termMap, e.2.count = countKey posts e.1) ∧
  (∀ key : List Char × List Char,
    key.1 = ("category").data ∨ key.1 = ("tag").data →
    key ∉ st.termMap.map (·.1) → countKey posts key = 0) ∧
  (∀ e ∈ st.termMap, e.1.1 = ("category").data ∨ e.1.1 = ("tag").data)

lemma GInv_to_cat (base : Int) (posts : List HexoPost) (st : BuildState)
    (h : GInv base posts st) :
    TermMapInv base (countKey posts) (("category").data) (keyStream posts) [] st := by
  obtain ⟨h0, h1, h2, h3, h4, h5, h6, h7⟩ := h
  refine ⟨h0, h1, h2, ?_, h4, ?_, ?_, h7⟩
  · simpa [firstSeen] using h3
  · intro e he
    simpa using h5 e he
  · intro key hkind hm
    exact ⟨h6 key hkind hm, fun _ => List.not_mem_nil key.2⟩

lemma cat_to_tag (base : Int) (posts : List HexoPost) (p : HexoPost) (st : BuildState)
    (h : TermMapInv base (countKey posts) (("category").data) (keyStream posts)
      (dedupe p.categories) st) :
    TermMapInv base
      (fun key => countKey posts key +
        (if key.1 = ("category").data ∧ key.2 ∈ dedupe p.categories then 1 else 0))
      (("tag").data)
      (keyStream posts ++ (dedupe p.categories).map (fun n => ((("category").data), n)))
      [] st := by
  obtain ⟨h0, h1, h2, h3, h4, h5, h6, h7⟩ := h
  refine ⟨h0, h1, h2, ?_, h4, ?_, ?_, h7⟩
  · simpa using h3
  · intro e he
    simpa using h5 e he
  · intro key hkind hm
    obtain ⟨hp, hd⟩ := h6 key hkind hm
    refine ⟨?_, fun _ => List.not_mem_nil key.2⟩
    dsimp only
    rw [hp]
    by_cases hc : key.1 = ("category").data
    · rw [if_neg]
      rintro ⟨_, hmem2⟩
      exact hd hc hmem2
    · rw [if_neg (fun hc2 => hc hc2.1)]

lemma tag_to_GInv (base : Int) (posts : List HexoPost) (p : HexoPost) (st : BuildState)
    (h : TermMapInv base
      (fun key => countKey posts key +
        (if key.1 = ("category").data ∧ key.2 ∈ dedupe p.categories then 1 else 0))
      (("tag").data)
      (keyStream posts ++ (dedupe p.categories).map (fun n => ((("category").data), n)))
      (dedupe p.tags) st) :
    GInv base (posts ++ [p]) st := by
  obtain ⟨h0, h1, h2, h3, h4, h5, h6, h7⟩ := h
  have hct : (("category").data : List Char) ≠ ("tag").data := by decide
  refine ⟨h0, h1, h2, ?_, h4, ?_, ?_, h7⟩
  · rw [h3, firstSeen, keyStream_append, ← List.append_assoc]
  · intro e he
    have h5e := h5 e he
    dsimp only at h5e
    rw [countKey_append, h5e]
    rcases h7 e he with hcat | htag
    · have hne : ¬(e.1.1 = ("tag").data ∧ e.1.2 ∈ dedupe p.tags) := by
        rintro ⟨hc, _⟩
        rw [hcat] at hc
        exact hct hc
      rw [if_neg hne, hcat, if_pos rfl]
      by_cases hc : e.1.2 ∈ dedupe p.categories
      · rw [if_pos ⟨rfl, hc⟩, if_pos hc]
      · rw [if_neg (fun hc2 => hc hc2.2), if_neg hc]
    · have hne : ¬(e.1.1 = ("category").data ∧ e.1.2 ∈ dedupe p.categories) := by
        rintro ⟨hc, _⟩
        rw [htag] at hc
        exact hct hc.symm
      have hne2 : (("tag").data : List Char) ≠ ("category").data := fun hc => hct hc.symm
      rw [if_neg hne, htag, if_neg hne2]
      by_cases hc : e.1.2 ∈ dedupe p.tags
      · have ha : (("tag").data : List Char) = ("tag").data ∧ e.1.2 ∈ dedupe p.tags :=
          ⟨rfl, hc⟩
        rw [if_pos ha, if_pos hc]
      · have ha : ¬((("tag").data : List Char) = ("tag").data ∧ e.1.2 ∈ dedupe p.tags) :=
          fun hc2 => hc hc2.2
        rw [if_neg ha, if_neg hc]
  · intro key hkind hm
    obtain ⟨hp, hd⟩ := h6 key hkind hm
    dsimp only at hp
    have hp1 : countKey posts key = 0 := by omega
    have hp2 : ¬(key.1 = ("category").data ∧ key.2 ∈ dedupe p.categories) := by
      intro hc
      rw [if_pos hc] at hp
      omega
    rw [countKey_append, hp1]
    rcases hkind with hcat | htag
    · rw [hcat, if_pos rfl, if_neg (fun hc => hp2 ⟨hcat, hc⟩)]
    · have hne2 : (("tag").data : List Char) ≠ ("category").data := fun hc => hct hc.symm
      have hne3 : key.2 ∉ dedupe p.tags := hd htag
      rw [htag, if_neg hne2, if_neg hne3]

lemma GInv_rows (base : Int) (posts : List HexoPost) (st : BuildState)
    (c : Int) (r : List ContentRow) (h : GInv base posts st) :
    GInv base posts { st with nextCid := c, rows := r } := by
  unfold GInv at h ⊢
  exact h

lemma folds_GInv (base cid : Int) (posts : List HexoPost) (p : HexoPost)
    (st : BuildState) (h : GInv base posts st) :
    GInv base (posts ++ [p])
      ((dedupe p.tags).foldl (processTermName (("tag").data) cid)
        ((dedupe p.categories).foldl (processTermName (("category").data) cid) st)) := by
  apply tag_to_GInv
  have h2 := foldl_names_TermMapInv base
      (fun key => countKey posts key +
        (if key.1 = ("category").data ∧ key.2 ∈ dedupe p.categories then 1 else 0))
      (("tag").data)
      (keyStream posts ++ (dedupe p.categories).map (fun n => ((("category").data), n)))
      cid (Or.inr rfl) (dedupe p.tags) [] _
      (by simpa using dedupe_nodup p.tags)
      (cat_to_tag base posts p _
        (foldl_names_TermMapInv base (countKey posts) (("category").data)
          (keyStream posts) cid (Or.inl rfl) (dedupe p.categories) [] _
          (by simpa using dedupe_nodup p.categories)
          (GInv_to_cat base posts _ h)))
  exact h2

lemma processPost_GInv (base authorId : Int) (posts : List HexoPost) (p : HexoPost)
    (st : BuildState) (h : GInv base posts st) :
    GInv base (posts ++ [p]) (processPost authorId st p) := by
  unfold processPost
  dsimp only
  exact folds_GInv base st.nextCid posts p _ (GInv_rows base posts st _ _ h)

lemma foldl_posts_GInv (base authorId : Int) :
    ∀ (rest processed : List HexoPost) (st : BuildState),
      GInv base processed st →
      GInv base (processed ++ rest) (rest.foldl (processPost authorId) st) := by
  intro rest
  induction rest with
  | nil =>
    intro processed st h
    simpa using h
  | cons p t ih =>
    intro processed st h
    have h2 := ih (processed ++ [p]) _ (processPost_GInv base authorId processed p st h)
    rw [List.append_assoc] at h2
    simpa using h2

lemma GInv_build_sql_state (posts : List HexoPost) (authorId cidStart midStart : Int) :
    GInv (max midStart 1) posts (build_sql_state posts authorId cidStart midStart) := by
  unfold build_sql_state
  have hinit : GInv (max midStart 1) []
      (⟨max cidStart 1, max midStart 1, [], [], [], []⟩ : BuildState) :=
    ⟨List.nodup_nil, by simp, rfl, rfl, fun e he => absurd he (List.not_mem_nil e),
      fun e he => absurd he (List.not_mem_nil e), fun key _ _ => rfl,
      fun e he => absurd he (List.not_mem_nil e)⟩
  have h2 := foldl_posts_GInv (max midStart 1) authorId posts [] _ hinit
  simpa using h2

lemma termMap_snd_sorted (base : Int) (m : List ((List Char × List Char) × Term))
    (h : m.map (fun e => e.2.mid) =
      (List.range m.length).map (fun i => base + Int.ofNat i)) :
    (m.map (·.2)).Pairwise (fun a b => a.mid ≤ b.mid) := by
  have h1 : (m.map (fun e => e.2.mid)).Pairwise (· ≤ ·) := by
    rw [h]
    refine List.Pairwise.map _ (fun a b hab => ?_) (List.pairwise_lt_range _)
    simp only [Int.ofNat_eq_coe]
    omega
  rw [List.pairwise_map] at h1 ⊢
  exact h1

/-- **C5** (amended).  For every post list and configured ids, the terms
    emitted by `build_sql` list, in mid order, exactly the distinct
    `(kind, name)` pairs of the emission stream (each post's categories
    then tags, posts in order) in first-seen order; the Nth distinct pair
    receives mid `max midStart 1 + N - 1` (not `midStart + N - 1`: the
    start is clamped to at least 1), and each term's count equals the
    number of posts referencing it. -/
theorem c5_term_ids_first_seen_and_counts (posts : List HexoPost)
    (authorId cidStart midStart : Int) :
    (build_sql_terms posts authorId cidStart midStart).map
        (fun t => (t.term_type, t.name)) = firstSeen (keyStream posts) ∧
    (build_sql_terms posts authorId cidStart midStart).map (fun t => t.mid) =
      (List.range (firstSeen (keyStream posts)).length).map
        (fun i => max midStart 1 + Int.ofNat i) ∧
    ∀ t ∈ build_sql_terms posts authorId cidStart midStart,
      t.count = countRefs posts t := by
  obtain ⟨h0, h1, h2, h3, h4, h5, h6, h7⟩ :=
    GInv_build_sql_state posts authorId cidStart midStart
  have hsorted := termMap_snd_sorted (max midStart 1)
    (build_sql_state posts authorId cidStart midStart).termMap h2
  have hterms : build_sql_terms posts authorId cidStart midStart =
      (build_sql_state posts authorId cidStart midStart).termMap.map (·.2) := by
    unfold build_sql_terms
    exact List.Sorted.insertionSort_eq hsorted
  refine ⟨?_, ?_, ?_⟩
  · rw [hterms, List.map_map]
    have hcong : (build_sql_state posts authorId cidStart midStart).termMap.map
        ((fun t => (t.term_type, t.name)) ∘ (·.2)) =
        (build_sql_state posts authorId cidStart midStart).termMap.map (·.1) := by
      apply List.map_congr_left
      intro e he
      obtain ⟨hn, ht⟩ := h4 e he
      simp [Function.comp, hn, ht]
    rw [hcong]
    exact h3
  · rw [hterms, List.map_map]
    have hlen : (build_sql_state posts authorId cidStart midStart).termMap.length =
        (firstSeen (keyStream posts)).length := by
      rw [← h3, List.length_map]
    have hcong : (build_sql_state posts authorId cidStart midStart).termMap.map
        ((fun t => t.mid) ∘ (·.2)) =
        (build_sql_state posts authorId cidStart midStart).termMap.map
          (fun e => e.2.mid) := rfl
    rw [hcong, h2, hlen]
  · intro t ht
    rw [hterms] at ht
    obtain ⟨e, he, hte⟩ := List.mem_map.mp ht
    subst hte
    rw [h5 e he]
    obtain ⟨hn, htt⟩ := h4 e he
    unfold countRefs countKey
    rw [hn, htt]

/-- Counterexample to claim C5 as stated: with a configured starting
    term id of 0, the first distinct term pair receives mid 1 (the code
    clamps the start with `max(mid_start, 1)`), not `0 + 1 - 1 = 0`. -/
theorem c5_counterexample_start_zero_clamped :
    ((build_sql_terms
      [⟨("a").data, ("p").data, ("t").data, ("t").data,
        ⟨2023, 1, 1, 0, 0, 0, 0, some 0⟩, ⟨2023, 1, 1, 0, 0, 0, 0, some 0⟩,
        [], [], [], [], [("x").data], ("publish").data, ("post").data, none, 0⟩]
      1 1 0).map (fun t => t.mid) = [(1 : Int)]) ∧
    ¬ ((build_sql_terms
      [⟨("a").data, ("p").data, ("t").data, ("t").data,
        ⟨2023, 1, 1, 0, 0, 0, 0, some 0⟩, ⟨2023, 1, 1, 0, 0, 0, 0, some 0⟩,
        [], [], [], [], [("x").data], ("publish").data, ("post").data, none, 0⟩]
      1 1 0).map (fun t => t.mid) = [(0 : Int)]) := by
  constructor
  · rfl
  · decide

end H2T
namespace H2T

lemma splitLinesKeepAux_no_nl (s : List Char) (hs : ∀ x ∈ s, x ≠ '\n' ∧ x ≠ '\r') :
    ∀ cur, splitLinesKeepAux cur s = if cur = [] ∧ s = [] then [] else [cur.reverse ++ s] := by
  induction s with
  | nil =>
    intro cur
    by_cases h : cur = []
    · simp [splitLinesKeepAux, h]
    · simp [splitLinesKeepAux, h]
  | cons c rest ih =>
    intro cur
    obtain ⟨hn, hr⟩ := hs c (List.mem_cons_self c rest)
    have hs2 : ∀ x ∈ rest, x ≠ '\n' ∧ x ≠ '\r' := fun x hx =>
      hs x (List.mem_cons_of_mem c hx)
    have hstep : splitLinesKeepAux cur (c :: rest) = splitLinesKeepAux (c :: cur) rest := by
      rw [splitLinesKeepAux.eq_def]
      split
      · rename_i heq
        exact absurd heq (List.cons_ne_nil c rest)
      · rename_i heq
        injection heq with h1 h2
        exact absurd h1 hr
      · rename_i heq
        injection heq with h1 h2
        exact absurd h1 hr
      · rename_i heq
        injection heq with h1 h2
        exact absurd h1 hn
      · rename_i heq
        injection heq with h1 h2
        rw [h1, h2]
    rw [hstep, ih hs2 (c :: cur)]
    simp

lemma splitLinesKeep_single (s : List Char) (hs : ∀ x ∈ s, x ≠ '\n' ∧ x ≠ '\r')
    (hne : s ≠ []) : splitLinesKeep s = [s] := by
  unfold splitLinesKeep
  rw [splitLinesKeepAux_no_nl s hs []]
  simp [hne]

lemma mask_fenced_single_no_fence (l : List Char)
    (hsplit : splitLinesKeep l = [l]) (hopen : openFenceInfo l = none) :
    mask_fenced_code_blocks l 0 = (l, [], 0) := by
  unfold mask_fenced_code_blocks
  rw [hsplit]
  dsimp only [List.foldl]
  rw [maskFencedStep]
  dsimp only
  rw [if_pos rfl, hopen]
  dsimp only
  simp

lemma openFenceInfo_none_single_btick (a : List Char) (x : Char) (rest : List Char)
    (ha : ∀ y ∈ a, y ≠ btick ∧ y ≠ '~') (hx : x ≠ btick) :
    openFenceInfo (a ++ btick :: x :: rest) = none := by
  unfold openFenceInfo
  rw [List.dropWhile_append]
  by_cases he : (a.dropWhile isSpTab).isEmpty
  · rw [if_pos he]
    have hbt : (btick :: x :: rest).dropWhile isSpTab = btick :: x :: rest := by
      rw [List.dropWhile_cons, if_neg (by decide)]
    rw [hbt]
    dsimp only
    rw [if_pos (Or.inl rfl)]
    have hrun : (btick :: x :: rest).takeWhile (· = btick) = [btick] := by
      rw [List.takeWhile_cons, if_pos (by decide), List.takeWhile_cons, if_neg (by simpa using hx)]
    rw [hrun]
    simp
  · rw [if_neg he]
    cases hd : a.dropWhile isSpTab with
    | nil => rw [hd] at he; simp at he
    | cons y ys =>
      have hy : y ∈ a := (List.dropWhile_sublist isSpTab).subset (hd ▸ List.mem_cons_self y ys)
      obtain ⟨hy1, hy2⟩ := ha y hy
      rw [List.cons_append]
      dsimp only
      rw [if_neg]
      rintro (hc | hc)
      · exact hy1 hc
      · exact hy2 hc

lemma maskInline_id (s : List Char) (hs : btick ∉ s) :
    ∀ fuel idx, maskInlineAux fuel idx s = (s, [], idx) := by
  induction s with
  | nil =>
    intro fuel idx
    cases fuel <;> rfl
  | cons c rest ih =>
    intro fuel idx
    have hc : c ≠ btick := fun h => hs (h ▸ List.mem_cons_self c rest)
    have hrest : btick ∉ rest := fun h => hs (List.mem_cons_of_mem c h)
    cases fuel with
    | zero => rfl
    | succ f =>
      rw [maskInlineAux]
      rw [if_pos hc]
      dsimp only
      rw [ih hrest f idx]

lemma maskInline_copy (u : List Char) (hu : btick ∉ u) :
    ∀ fuel idx s, maskInlineAux (u.length + fuel) idx (u ++ s) =
      ((u ++ (maskInlineAux fuel idx s).1), (maskInlineAux fuel idx s).2) := by
  induction u with
  | nil =>
    intro fuel idx s
    simp
  | cons c u2 ih =>
    intro fuel idx s
    have hc : c ≠ btick := fun h => hu (h ▸ List.mem_cons_self c u2)
    have hu2 : btick ∉ u2 := fun h => hu (List.mem_cons_of_mem c h)
    have hlen : (c :: u2).length + fuel = (u2.length + fuel) + 1 := by
      simp [List.length_cons]
      omega
    rw [hlen, List.cons_append, maskInlineAux, if_pos hc]
    dsimp only
    rw [ih hu2 fuel idx s]
    simp

lemma findOcc_of_prefix (pat s : List Char) (hp : pat.isPrefixOf s) :
    findOcc pat s = some 0 := by
  cases s with
  | nil =>
    cases pat with
    | nil => rfl
    | cons a t => simp [List.isPrefixOf] at hp
  | cons c rest =>
    rw [findOcc, if_pos hp]

lemma findOcc_cons_head (h0 : Char) (pt : List Char) (u s : List Char)
    (hu : ∀ x ∈ u, x ≠ h0) :
    findOcc (h0 :: pt) (u ++ s) = (findOcc (h0 :: pt) s).map (· + u.length) := by
  induction u with
  | nil =>
    simp
  | cons c u2 ih =>
    have hc : c ≠ h0 := hu c (List.mem_cons_self c u2)
    have hu2 : ∀ x ∈ u2, x ≠ h0 := fun x hx => hu x (List.mem_cons_of_mem c hx)
    rw [List.cons_append, findOcc]
    have hnp : ¬ (h0 :: pt).isPrefixOf (c :: (u2 ++ s)) = true := by
      intro hpre
      simp [List.isPrefixOf] at hpre
      exact hc hpre.1.symm
    rw [if_neg hnp, ih hu2]
    cases findOcc (h0 :: pt) s <;> simp [List.length_cons] <;> omega

lemma maskInline_span (inner rest : List Char) (fuel idx : Nat)
    (hi : btick ∉ inner) (hne : inner ≠ []) :
    maskInlineAux (fuel + 1) idx (btick :: (inner ++ btick :: rest)) =
      ((make_token idx ++ (maskInlineAux fuel (idx + 1) rest).1),
        ((make_token idx, btick :: (inner ++ [btick])) :: (maskInlineAux fuel (idx + 1) rest).2.1),
        (maskInlineAux fuel (idx + 1) rest).2.2) := by
  obtain ⟨i0, it, rfl⟩ : ∃ i0 it, inner = i0 :: it := by
    cases inner with
    | nil => exact absurd rfl hne
    | cons a b => exact ⟨a, b, rfl⟩
  have hi0 : i0 ≠ btick := fun h => hi (h ▸ List.mem_cons_self i0 it)
  have hrun : (btick :: ((i0 :: it) ++ btick :: rest)).takeWhile (· = btick) = [btick] := by
    rw [List.takeWhile_cons, if_pos (by simp), List.cons_append, List.takeWhile_cons,
      if_neg (by simpa using hi0)]
  have hfo : findOcc [btick] ((i0 :: it) ++ btick :: rest) = some (i0 :: it).length := by
    rw [findOcc_cons_head btick [] (i0 :: it) (btick :: rest)
      (fun x hx h => hi (h ▸ hx)),
      findOcc_of_prefix [btick] (btick :: rest) (by simp [List.isPrefixOf])]
    simp
  rw [maskInlineAux, if_neg (by simp)]
  rw [hrun]
  simp only [List.length_singleton, List.replicate_succ, List.replicate_zero,
    List.drop_succ_cons, List.drop_zero]
  rw [hfo]
  dsimp only
  have hraw : (btick :: ((i0 :: it) ++ btick :: rest)).take (1 + (i0 :: it).length + 1) =
      btick :: ((i0 :: it) ++ [btick]) := by
    have hshape : btick :: ((i0 :: it) ++ btick :: rest) =
        (btick :: ((i0 :: it) ++ [btick])) ++ rest := by
      simp
    rw [hshape]
    rw [List.take_left' (by simp [List.length_append]; try omega)]
  rw [hraw]
  have hrem : ((i0 :: it) ++ btick :: rest).drop ((i0 :: it).length + 1) = rest := by
    have hshape2 : (i0 :: it) ++ btick :: rest = ((i0 :: it) ++ [btick]) ++ rest := by simp
    rw [hshape2]
    rw [List.drop_left' (by simp [List.length_append])]
  rw [hrem]

lemma chain2_of_all {R : Char → Char → Prop} {P : Char → Prop} (l : List Char)
    (hl : ∀ x ∈ l, P x) (hR : ∀ x y, P x → R x y) : l.Chain' R := by
  induction l with
  | nil => exact List.chain'_nil
  | cons c rest ih =>
    rw [List.chain'_cons']
    refine ⟨?_, ih (fun x hx => hl x (List.mem_cons_of_mem c hx))⟩
    intro y _
    exact hR c y (hl c (List.mem_cons_self c rest))

lemma pd_identity (mode : List Char) :
    ∀ (fuel : Nat) (s : List Char) (prev : Char) (idx : Nat),
      s.Chain' (fun x y => ¬(x = '$' ∧ y = '$')) →
      protectDisplayAux mode fuel prev idx s = (s, [], idx) := by
  intro fuel
  induction fuel with
  | zero => intro s prev idx _; rfl
  | succ f ih =>
    intro s prev idx hch
    match s with
    | [] => rfl
    | [c] => rfl
    | c :: d :: rest =>
      have hcd : ¬(c = '$' ∧ d = '$') := (List.chain'_cons.mp hch).1
      rw [protectDisplayAux, if_neg (fun h => hcd ⟨h.1, h.2.1⟩)]
      dsimp only
      rw [ih (d :: rest) c idx (List.chain'_cons.mp hch).2]

lemma pe_identity (mode : List Char) (o2 c2 : Char) :
    ∀ (fuel : Nat) (s : List Char) (idx : Nat), '\\' ∉ s →
      protectEscAux mode o2 c2 fuel idx s = (s, [], idx) := by
  intro fuel
  induction fuel with
  | zero => intro s idx _; rfl
  | succ f ih =>
    intro s idx hs
    match s with
    | [] => rfl
    | [c] => rfl
    | c :: d :: rest =>
      have hc : c ≠ '\\' := fun h => hs (h ▸ List.mem_cons_self c (d :: rest))
      rw [protectEscAux, if_neg (fun h => hc h.1)]
      dsimp only
      rw [ih (d :: rest) idx (fun h => hs (List.mem_cons_of_mem c h))]

lemma id_identity (mode : List Char) :
    ∀ (fuel : Nat) (s : List Char) (prev : Char), '$' ∉ s →
      inlineDollarAux mode fuel prev s = s := by
  intro fuel
  induction fuel with
  | zero => intro s prev _; rfl
  | succ f ih =>
    intro s prev hs
    match s with
    | [] => rfl
    | [c] => rfl
    | c :: d :: rest =>
      have hc : c ≠ '$' := fun h => hs (h ▸ List.mem_cons_self c (d :: rest))
      rw [inlineDollarAux, if_neg (fun h => hc h.1)]
      rw [ih (d :: rest) c (fun h => hs (List.mem_cons_of_mem c h))]

lemma id_copy (mode : List Char) (u : List Char) (hu : '$' ∉ u) :
    ∀ (fuel : Nat) (prev : Char) (s : List Char),
      inlineDollarAux mode (u.length + fuel) prev (u ++ s) =
        u ++ inlineDollarAux mode fuel (u.getLastD prev) s := by
  induction u with
  | nil =>
    intro fuel prev s
    simp [List.getLastD]
  | cons c u2 ih =>
    intro fuel prev s
    have hc : c ≠ '$' := fun h => hu (h ▸ List.mem_cons_self c u2)
    have hu2 : '$' ∉ u2 := fun h => hu (List.mem_cons_of_mem c h)
    have hlen : (c :: u2).length + fuel = (u2.length + fuel) + 1 := by
      simp [List.length_cons]
      omega
    rw [hlen, List.cons_append]
    match hm : u2 ++ s with
    | [] =>
      have hu2n : u2 = [] := (List.append_eq_nil.mp hm).1
      have hsn : s = [] := (List.append_eq_nil.mp hm).2
      subst hu2n
      subst hsn
      cases fuel with
      | zero => rfl
      | succ f2 => rfl
    | e :: es =>
      rw [inlineDollarAux, if_neg (fun h => hc h.1)]
      rw [← hm, ih hu2 fuel c s]
      rw [List.getLastD_cons, List.cons_append]

lemma findCloseID_found (rest : List Char) :
    ∀ (inner : List Char) (prev : Char) (acc : List Char),
      (∀ x ∈ inner, x ≠ '\n' ∧ x ≠ '$') →
      acc.reverse ++ inner ≠ [] →
      inner.getLastD prev ≠ '\\' →
      findCloseID prev acc (inner ++ '$' :: rest) =
        some (acc.reverse ++ inner, rest) := by
  intro inner
  induction inner with
  | nil =>
    intro prev acc hin hne hlast
    rw [List.nil_append, findCloseID]
    rw [if_neg (by decide)]
    have hacc : acc ≠ [] := by
      intro h
      subst h
      simp at hne
    rw [if_pos (⟨rfl, hlast, hacc⟩ : ('$' : Char) = '$' ∧ prev ≠ '\\' ∧ acc ≠ [])]
    simp
  | cons x it ih =>
    intro prev acc hin hne hlast
    obtain ⟨hxn, hxd⟩ := hin x (List.mem_cons_self x it)
    rw [List.cons_append, findCloseID, if_neg hxn, if_neg (fun h => hxd h.1)]
    rw [ih x (x :: acc) (fun y hy => hin y (List.mem_cons_of_mem x hy))
      (by simp) (by rw [← List.getLastD_cons]; exact hlast)]
    simp

lemma id_match (mode : List Char) (fuel : Nat) (prev : Char) (i0 : Char) (it rest : List Char)
    (hprev : prev ≠ '\\') (hi0 : i0 ≠ '$')
    (hin : ∀ x ∈ (i0 :: it), x ≠ '\n' ∧ x ≠ '$')
    (hlast : (i0 :: it).getLastD '$' ≠ '\\') :
    inlineDollarAux mode (fuel + 1) prev ('$' :: ((i0 :: it) ++ '$' :: rest)) =
      '$' :: (normalize_math_underscores_segment (i0 :: it) mode ++
        '$' :: inlineDollarAux mode fuel '$' rest) := by
  have hsh : '$' :: ((i0 :: it) ++ '$' :: rest) = '$' :: i0 :: (it ++ '$' :: rest) := by
    simp
  rw [hsh, inlineDollarAux, if_pos ⟨rfl, hprev, hi0⟩]
  have hfc : findCloseID '$' [] (i0 :: (it ++ '$' :: rest)) = some (i0 :: it, rest) := by
    have hsh2 : i0 :: (it ++ '$' :: rest) = (i0 :: it) ++ '$' :: rest := by simp
    rw [hsh2, findCloseID_found rest (i0 :: it) '$' [] hin (by simp) hlast]
    simp
  rw [hfc]

lemma replaceAllFuel_none (pat rep s : List Char) (h : findOcc pat s = none) :
    ∀ fuel, replaceAllFuel pat rep fuel s = s := by
  intro fuel
  cases fuel with
  | zero => rfl
  | succ f => rw [replaceAllFuel, h]

lemma replaceAll_once (u v pt rep : List Char) (h0 : Char)
    (hu : ∀ x ∈ u, x ≠ h0) (hv : findOcc (h0 :: pt) v = none) :
    replaceAll (u ++ (h0 :: pt) ++ v) (h0 :: pt) rep = u ++ rep ++ v := by
  unfold replaceAll
  rw [if_neg (by simp)]
  have hfo : findOcc (h0 :: pt) (u ++ (h0 :: pt) ++ v) = some u.length := by
    rw [List.append_assoc, findOcc_cons_head h0 pt u ((h0 :: pt) ++ v) hu,
      findOcc_of_prefix (h0 :: pt) ((h0 :: pt) ++ v)
        (List.isPrefixOf_iff_prefix.mpr (List.prefix_append (h0 :: pt) v))]
    simp
  obtain ⟨f, hf⟩ : ∃ f, (u ++ (h0 :: pt) ++ v).length = f + 1 := by
    refine ⟨(u ++ (h0 :: pt) ++ v).length - 1, ?_⟩
    simp [List.length_append]
    omega
  rw [hf, replaceAllFuel, hfo]
  dsimp only
  have ht : (u ++ (h0 :: pt) ++ v).take u.length = u := by
    rw [List.append_assoc, List.take_left]
  have hd : (u ++ (h0 :: pt) ++ v).drop (u.length + (h0 :: pt).length) = v :=
    List.drop_left' (by simp)
  rw [ht, hd, replaceAllFuel_none (h0 :: pt) rep v hv f]

lemma getLastD_ne (u : List Char) (hu : ∀ x ∈ u, x ≠ '\\') :
    ∀ d, d ≠ '\\' → u.getLastD d ≠ '\\' := by
  induction u with
  | nil => intro d hd; exact hd
  | cons x u2 ih =>
    intro d _
    rw [List.getLastD_cons]
    exact ih (fun y hy => hu y (List.mem_cons_of_mem x hy)) x
      (hu x (List.mem_cons_self x u2))

lemma chain_noDD (u c2 : List Char) (hu : ∀ x ∈ u, x ≠ '$') (hc2 : ∀ x ∈ c2, x ≠ '$') :
    (u ++ '$' :: 'x' :: '_' :: '1' :: '$' :: c2).Chain'
      (fun x y => ¬(x = '$' ∧ y = '$')) := by
  rw [List.chain'_append]
  refine ⟨chain2_of_all u hu (fun x y hx h => hx h.1), ?_, ?_⟩
  · rw [List.chain'_cons, List.chain'_cons, List.chain'_cons, List.chain'_cons]
    refine ⟨by decide, by decide, by decide, by decide, ?_⟩
    rw [List.chain'_cons']
    refine ⟨?_, chain2_of_all c2 hc2 (fun x y hx h => hx h.1)⟩
    intro y hy
    rintro ⟨_, hy2⟩
    cases c2 with
    | nil => simp at hy
    | cons z zs =>
      simp at hy
      exact hc2 z (List.mem_cons_self z zs) (hy ▸ hy2)
  · intro x hx y hy
    rintro ⟨hx2, _⟩
    have hmem : x ∈ u := List.mem_of_getLast?_eq_some hx
    exact hu x hmem hx2

lemma restore_tokens_nil (s : List Char) : restore_tokens s [] = s := rfl

lemma restore_tokens_single (s t r : List Char) :
    restore_tokens s [(t, r)] = replaceAll s t r := rfl

/-- **C8** (amended).  With math-underscore mode `escaped`, in a
    single-line body `a + (code span of dollar-x-underscore-1-dollar) +
    b + (same inline math, unprotected) + c` whose free segments contain
    no backtick, tilde, dollar, backslash, at-sign or line break, the
    code span comes back verbatim (its underscore untouched) and only
    the unprotected math region's underscore is escaped. -/
theorem c8_code_span_protected_free_math_escaped (a b c : List Char)
    (ha : ∀ x ∈ a, x ≠ btick ∧ x ≠ '~' ∧ x ≠ '$' ∧ x ≠ '\\' ∧ x ≠ '@' ∧ x ≠ '\n' ∧ x ≠ '\r')
    (hb : ∀ x ∈ b, x ≠ btick ∧ x ≠ '~' ∧ x ≠ '$' ∧ x ≠ '\\' ∧ x ≠ '@' ∧ x ≠ '\n' ∧ x ≠ '\r')
    (hc : ∀ x ∈ c, x ≠ btick ∧ x ≠ '~' ∧ x ≠ '$' ∧ x ≠ '\\' ∧ x ≠ '@' ∧ x ≠ '\n' ∧ x ≠ '\r') :
    normalize_mathjax_underscores
      (a ++ (btick :: (("$x_1$").data ++ [btick])) ++ b ++ ("$x_1$").data ++ c)
      (("escaped").data) =
    a ++ (btick :: (("$x_1$").data ++ [btick])) ++ b ++ ("$x\\_1$").data ++ c := by
  have hx1 : (("$x_1$").data : List Char) = ['$', 'x', '_', '1', '$'] := rfl
  have hx2 : (("$x\\_1$").data : List Char) = ['$', 'x', '\\', '_', '1', '$'] := rfl
  rw [hx1, hx2]
  have hbody : a ++ (btick :: (['$', 'x', '_', '1', '$'] ++ [btick])) ++ b ++
      ['$', 'x', '_', '1', '$'] ++ c =
      a ++ (btick :: (['$', 'x', '_', '1', '$'] ++
        btick :: (b ++ ('$' :: 'x' :: '_' :: '1' :: '$' :: c)))) := by
    simp
  rw [hbody]
  set R : List Char := b ++ ('$' :: 'x' :: '_' :: '1' :: '$' :: c) with hR
  have hallR : ∀ x ∈ R, x ≠ btick ∧ x ≠ '~' ∧ x ≠ '\\' ∧ x ≠ '@' ∧ x ≠ '\n' ∧ x ≠ '\r' := by
    intro x hx
    rw [hR] at hx
    rcases List.mem_append.mp hx with hx1 | hx1
    · obtain ⟨q1, q2, _, q4, q5, q6, q7⟩ := hb x hx1
      exact ⟨q1, q2, q4, q5, q6, q7⟩
    · simp only [List.mem_cons] at hx1
      rcases hx1 with rfl | rfl | rfl | rfl | rfl | hx2
      · exact ⟨by decide, by decide, by decide, by decide, by decide, by decide⟩
      · exact ⟨by decide, by decide, by decide, by decide, by decide, by decide⟩
      · exact ⟨by decide, by decide, by decide, by decide, by decide, by decide⟩
      · exact ⟨by decide, by decide, by decide, by decide, by decide, by decide⟩
      · exact ⟨by decide, by decide, by decide, by decide, by decide, by decide⟩
      · obtain ⟨q1, q2, _, q4, q5, q6, q7⟩ := hc x hx2
        exact ⟨q1, q2, q4, q5, q6, q7⟩
  have hlit : ∀ y ∈ (['$', 'x', '_', '1', '$'] : List Char), y ≠ '\n' ∧ y ≠ '\r' := by decide
  have hne2 : a ++ (btick :: (['$', 'x', '_', '1', '$'] ++ btick :: R)) ≠ [] := by simp
  have hall : ∀ x ∈ a ++ (btick :: (['$', 'x', '_', '1', '$'] ++ btick :: R)),
      x ≠ '\n' ∧ x ≠ '\r' := by
    intro x hx
    rcases List.mem_append.mp hx with hx1 | hx1
    · exact ⟨(ha x hx1).2.2.2.2.2.1, (ha x hx1).2.2.2.2.2.2⟩
    · have hx2 : x = btick ∨ x = '$' ∨ x = 'x' ∨ x = '_' ∨ x = '1' ∨ x = '$' ∨
          x = btick ∨ x ∈ R := by
        simpa using hx1
      rcases hx2 with rfl | rfl | rfl | rfl | rfl | rfl | rfl | hm
      · exact ⟨by decide, by decide⟩
      · exact ⟨by decide, by decide⟩
      · exact ⟨by decide, by decide⟩
      · exact ⟨by decide, by decide⟩
      · exact ⟨by decide, by decide⟩
      · exact ⟨by decide, by decide⟩
      · exact ⟨by decide, by decide⟩
      · exact ⟨(hallR x hm).2.2.2.2.1, (hallR x hm).2.2.2.2.2⟩
  have hsplit := splitLinesKeep_single _ hall hne2
  have hopen : openFenceInfo (a ++ (btick :: (['$', 'x', '_', '1', '$'] ++ btick :: R))) =
      none := by
    have hsh : a ++ (btick :: (['$', 'x', '_', '1', '$'] ++ btick :: R)) =
        a ++ btick :: '$' :: ('x' :: '_' :: '1' :: '$' :: btick :: R) := by simp
    rw [hsh]
    exact openFenceInfo_none_single_btick a '$' _
      (fun y hy => ⟨(ha y hy).1, (ha y hy).2.1⟩) (by decide)
  have hmf := mask_fenced_single_no_fence _ hsplit hopen
  unfold normalize_mathjax_underscores
  rw [if_neg ?hcond]
  case hcond =>
    rintro (h | h)
    · exact absurd h (by decide)
    · rw [List.isEmpty_iff] at h
      exact hne2 h
  dsimp only
  rw [hmf]
  dsimp only
  have hbtA : btick ∉ a := fun h => (ha btick h).1 rfl
  have hbtR : btick ∉ R := fun h => (hallR btick h).1 rfl
  have hmi : mask_inline_code_spans
      (a ++ (btick :: (['$', 'x', '_', '1', '$'] ++ btick :: R))) 0 =
      ((a ++ (make_token 0 ++ R)),
        [(make_token 0, btick :: (['$', 'x', '_', '1', '$'] ++ [btick]))], 1) := by
    unfold mask_inline_code_spans
    have hflen : (a ++ (btick :: (['$', 'x', '_', '1', '$'] ++ btick :: R))).length =
        a.length + ((6 + R.length) + 1) := by
      simp [List.length_append]
      omega
    rw [hflen]
    rw [maskInline_copy a hbtA ((6 + R.length) + 1) 0
      (btick :: (['$', 'x', '_', '1', '$'] ++ btick :: R))]
    rw [maskInline_span (['$', 'x', '_', '1', '$']) R (6 + R.length) 0 (by decide) (by decide)]
    rw [maskInline_id R hbtR (6 + R.length) 1]
  rw [hmi]
  dsimp only
  have hdollarU : ∀ x ∈ a ++ (make_token 0 ++ b), x ≠ '$' := by
    intro x hx
    rcases List.mem_append.mp hx with h1 | h1
    · exact (ha x h1).2.2.1
    · rcases List.mem_append.mp h1 with h2 | h2
      · exact fun he => (by decide : ('$' : Char) ∉ make_token 0) (he ▸ h2)
      · exact (hb x h2).2.2.1
  have hdollarC : ∀ x ∈ c, x ≠ '$' := fun x hx => (hc x hx).2.2.1
  have hmshape : a ++ (make_token 0 ++ R) =
      (a ++ (make_token 0 ++ b)) ++ ('$' :: 'x' :: '_' :: '1' :: '$' :: c) := by
    rw [hR]
    simp
  have hchain : (a ++ (make_token 0 ++ R)).Chain' (fun x y => ¬(x = '$' ∧ y = '$')) := by
    rw [hmshape]
    exact chain_noDD _ c hdollarU hdollarC
  rw [pd_identity (("escaped").data) ((a ++ (make_token 0 ++ R)).length + 1)
      (a ++ (make_token 0 ++ R)) (Char.ofNat 0) 1 hchain]
  dsimp only
  have hbsM : '\\' ∉ a ++ (make_token 0 ++ R) := by
    intro h
    rcases List.mem_append.mp h with h1 | h1
    · exact (ha _ h1).2.2.2.1 rfl
    · rcases List.mem_append.mp h1 with h2 | h2
      · exact (by decide : ('\\' : Char) ∉ make_token 0) h2
      · exact (hallR _ h2).2.2.1 rfl
  rw [pe_identity (("escaped").data) '[' ']' ((a ++ (make_token 0 ++ R)).length + 1)
      (a ++ (make_token 0 ++ R)) 1 hbsM]
  dsimp only
  rw [pe_identity (("escaped").data) '(' ')' ((a ++ (make_token 0 ++ R)).length + 1)
      (a ++ (make_token 0 ++ R)) 1 hbsM]
  dsimp only
  have hdU : '$' ∉ a ++ (make_token 0 ++ b) := fun h => hdollarU _ h rfl
  have hbsU : ∀ x ∈ a ++ (make_token 0 ++ b), x ≠ '\\' := by
    intro x hx
    rcases List.mem_append.mp hx with h1 | h1
    · exact (ha x h1).2.2.2.1
    · rcases List.mem_append.mp h1 with h2 | h2
      · exact fun he => (by decide : ('\\' : Char) ∉ make_token 0) (he ▸ h2)
      · exact (hb x h2).2.2.2.1
  have hmshape2 : a ++ (make_token 0 ++ R) =
      (a ++ (make_token 0 ++ b)) ++ ('$' :: (('x' :: '_' :: '1' :: []) ++ '$' :: c)) := by
    rw [hR]
    simp
  have hflen2 : (a ++ (make_token 0 ++ R)).length + 1 =
      (a ++ (make_token 0 ++ b)).length + ((5 + c.length) + 1) := by
    rw [hR]
    simp [List.length_append]
    omega
  rw [hflen2, hmshape2]
  rw [id_copy (("escaped").data) (a ++ (make_token 0 ++ b)) hdU ((5 + c.length) + 1)
      (Char.ofNat 0) ('$' :: (('x' :: '_' :: '1' :: []) ++ '$' :: c))]
  rw [id_match (("escaped").data) (5 + c.length)
      ((a ++ (make_token 0 ++ b)).getLastD (Char.ofNat 0)) 'x' ('_' :: '1' :: []) c
      (getLastD_ne _ hbsU (Char.ofNat 0) (by decide)) (by decide) (by decide) (by decide)]
  rw [id_identity (("escaped").data) (5 + c.length) c '$' (fun h => hdollarC '$' h rfl)]
  have hseg : normalize_math_underscores_segment ('x' :: '_' :: '1' :: []) (("escaped").data) =
      'x' :: '\\' :: '_' :: '1' :: [] := by decide
  rw [hseg]
  simp only [List.nil_append, List.append_nil]
  rw [restore_tokens_nil, restore_tokens_single]
  have htokc : make_token 0 = '@' :: (("@HEXO2TYPECHO_TOKEN_0@@").data) := rfl
  have hAtV : ('@' : Char) ∉ b ++ ('$' :: 'x' :: '\\' :: '_' :: '1' :: '$' :: c) := by
    intro h
    rcases List.mem_append.mp h with h1 | h1
    · exact (hb _ h1).2.2.2.2.1 rfl
    · have h2 : ('@' : Char) = '$' ∨ ('@' : Char) = 'x' ∨ ('@' : Char) = '\\' ∨
          ('@' : Char) = '_' ∨ ('@' : Char) = '1' ∨ ('@' : Char) = '$' ∨ '@' ∈ c := by
        simpa using h1
      rcases h2 with h3 | h3 | h3 | h3 | h3 | h3 | h3
      · exact absurd h3 (by decide)
      · exact absurd h3 (by decide)
      · exact absurd h3 (by decide)
      · exact absurd h3 (by decide)
      · exact absurd h3 (by decide)
      · exact absurd h3 (by decide)
      · exact (hc _ h3).2.2.2.2.1 rfl
  have hfinshape : (a ++ (make_token 0 ++ b)) ++
      ('$' :: (('x' :: '\\' :: '_' :: '1' :: []) ++ '$' :: c)) =
      a ++ ('@' :: (("@HEXO2TYPECHO_TOKEN_0@@").data) : List Char) ++
        (b ++ ('$' :: 'x' :: '\\' :: '_' :: '1' :: '$' :: c)) := by
    rw [← htokc]
    simp
  rw [hfinshape, htokc]
  rw [replaceAll_once a (b ++ ('$' :: 'x' :: '\\' :: '_' :: '1' :: '$' :: c))
      (("@HEXO2TYPECHO_TOKEN_0@@").data)
      (btick :: (['$', 'x', '_', '1', '$'] ++ [btick])) '@'
      (fun x hx => (ha x hx).2.2.2.2.1)
      (findOcc_none_of_head_not_mem rfl hAtV)]
  simp

/-- Witness for C8's amended theorem at concrete segments. -/
theorem c8_witness :
    normalize_mathjax_underscores
      ((("x ").data) ++ (btick :: (("$x_1$").data ++ [btick])) ++ ((" then ").data) ++
        ("$x_1$").data ++ ((" end").data)) (("escaped").data) =
    (("x ").data) ++ (btick :: (("$x_1$").data ++ [btick])) ++ ((" then ").data) ++
      ("$x\\_1$").data ++ ((" end").data) :=
  c8_code_span_protected_free_math_escaped (("x ").data) ((" then ").data) ((" end").data)
    (by decide) (by decide) (by decide)

/-- Counterexample to claim C8 as stated: with a stray dollar before the
    code span, the inline-math pass pairs the stray dollar with the one
    inside the masked token, escapes the token's underscores, restoration
    then fails to find the mangled sentinel, and the free `$x_1$` region
    is left unescaped — the claimed output is not produced. -/
theorem c8_counterexample_stray_dollar :
    normalize_mathjax_underscores (("$ ").data ++ (btick :: (("$x_1$").data ++ [btick])) ++
        ((" rest ").data) ++ ("$x_1$").data) (("escaped").data) =
      ("$ @@HEXO2TYPECHO\\_TOKEN\\_0@@ rest $x_1$").data ∧
    normalize_mathjax_underscores (("$ ").data ++ (btick :: (("$x_1$").data ++ [btick])) ++
        ((" rest ").data) ++ ("$x_1$").data) (("escaped").data) ≠
      ("$ ").data ++ (btick :: (("$x_1$").data ++ [btick])) ++ ((" rest ").data) ++
        ("$x\\_1$").data := by
  constructor
  · decide
  · decide

end H2T
